import Mathlib

/-!
# Verification of the `dot` dotfiles manager

A shallow embedding of the core of the `dot` repository:

* `internal/config/config.go` : the profile table and `GetProfiles`
  (profile merge with target-precedence override);
* `internal/utils` (`ExpandPath`, `BackupFile`);
* the linker package (`Link`, `Clean`, `Check`).

Modelling conventions:

* Go `map[string]string` values are modelled as association lists
  (`Smap`); a list fixes one enumeration order of the map, and claims
  about order (in)dependence quantify over permutations of that list.
  `lookupA`/`insertA`/`eraseA` give the usual deterministic map
  semantics (first match wins; insert replaces).
* The filesystem is a finite map from atomic path strings to entries
  (`file`, `dir`, `symlink target`).  Path strings are not decomposed
  into components; `goJoin` and `dirOf` model `filepath.Join` and
  `filepath.Dir` as plain string operations without the `Clean`
  normalisation (no theorem below depends on their fine structure).
* `os.Stat` follows symlink chains with bounded fuel (`statFuel`,
  the usual OS symlink-loop limit); running out of fuel yields the
  distinguished error result `.err`, which — exactly as in the Go code,
  which only tests `os.IsNotExist` — is *not* treated as absence.
* `os.Lstat` does not follow links.  In the model an `Lstat` error is
  exactly absence, and `Readlink` on a symlink always succeeds, so the
  code's defensive I/O-error branches are present but unreachable.
* Byte-slicing `path[2:]` is modelled as dropping two characters
  (`dropGo`); the sliced prefix `"~/"` is ASCII, so the two coincide.
-/

/-- Go-map lookup on an association list: first binding wins. -/
def lookupA {α : Type} : List (String × α) → String → Option α
  | [], _ => none
  | (k, v) :: rest, key => if key = k then some v else lookupA rest key

/-- Remove every binding of a key (helper for `insertA`). -/
def eraseA {α : Type} (m : List (String × α)) (k : String) : List (String × α) :=
  m.filter (fun p => p.1 ≠ k)

/-- Go-map assignment `m[k] = v`: replaces any existing binding. -/
def insertA {α : Type} (m : List (String × α)) (k : String) (v : α) : List (String × α) :=
  (k, v) :: eraseA m k

theorem eraseA_cons {α : Type} (p : String × α) (rest : List (String × α)) (k : String) :
    eraseA (p :: rest) k =
      if p.1 = k then eraseA rest k else p :: eraseA rest k := by
  by_cases hp : p.1 = k <;> simp [eraseA, List.filter_cons, hp]

theorem lookupA_eraseA {α : Type} (m : List (String × α)) (k k' : String) :
    lookupA (eraseA m k) k' = if k' = k then none else lookupA m k' := by
  induction m with
  | nil => simp [eraseA, lookupA]
  | cons p rest ih =>
    rw [eraseA_cons]
    by_cases hp : p.1 = k
    · rw [if_pos hp, ih]
      by_cases hk : k' = k
      · simp [hk]
      · simp only [if_neg hk, lookupA]
        rw [if_neg (fun hh : k' = p.1 => hk (hh.trans hp))]
    · rw [if_neg hp]
      by_cases hk : k' = p.1
      · simp only [lookupA, if_pos hk]
        rw [if_neg (fun hh : k' = k => hp (hk.symm.trans hh))]
      · simp only [lookupA, if_neg hk, ih]

theorem lookupA_insertA {α : Type} (m : List (String × α)) (k k' : String) (v : α) :
    lookupA (insertA m k v) k' = if k' = k then some v else lookupA m k' := by
  by_cases h : k' = k
  · simp [insertA, lookupA, h]
  · simp [insertA, lookupA, h, lookupA_eraseA]

/-- Model of Go `strings.HasPrefix`. -/
def hasPrefixGo (s pre : String) : Bool :=
  pre.data.isPrefixOf s.data

/-- Model of the Go byte-slice `s[n:]` (character-level; used only on
the ASCII prefix `"~/"`). -/
def dropGo (s : String) (n : Nat) : String :=
  String.mk (s.data.drop n)

/-- Model of `filepath.Join` on two components (without `Clean`). -/
def goJoin (a b : String) : String :=
  if a = "" then b else if b = "" then a else a ++ "/" ++ b

/-- Model of `filepath.Dir` (without `Clean`): everything before the
last path separator, `"."` when there is none, `"/"` for a root child. -/
def dirOf (p : String) : String :=
  match p.data.reverse.dropWhile (fun c => c ≠ '/') with
  | [] => "."
  | [_] => "/"
  | _ :: rest => String.mk rest.reverse

/-- `utils.ExpandPath`: expands a leading `~`; the `Option` argument is
the result of `os.UserHomeDir` (`none` = lookup failure). -/
def expandPath (home : Option String) (path : String) : String :=
  if ¬ hasPrefixGo path "~" then path
  else
    match home with
    | none => path
    | some homeDir =>
      if path = "~" then homeDir
      else if hasPrefixGo path "~/" then goJoin homeDir (dropGo path 2)
      else path

/-- One profile of the `.mappings` table: source path → target path,
in one enumeration order of the underlying Go map. -/
abbrev Smap := List (String × String)

/-- The state of `GetProfiles`' merge loop: the `result` map and the
`targetToSource` reverse index. -/
structure MergeState where
  result : Smap
  tts : Smap
  deriving Repr, DecidableEq

/-- One iteration of the seeding loop over the `[general]` profile
(`config.go` lines 57-62): plain inserts, no supersession check. -/
def seedEntry (st : MergeState) (e : String × String) : MergeState :=
  { result := insertA st.result e.1 e.2, tts := insertA st.tts e.2 e.1 }

/-- One iteration of the override loop (`config.go` lines 75-83):
if the reverse index knows this target, delete the superseded source's
binding, then insert and update the reverse index. -/
def applyEntry (st : MergeState) (e : String × String) : MergeState :=
  let result' :=
    match lookupA st.tts e.2 with
    | some oldSrc => eraseA st.result oldSrc
    | none => st.result
  { result := insertA result' e.1 e.2, tts := insertA st.tts e.2 e.1 }

/-- The loop over requested profile names (`config.go` lines 65-84):
`general` is skipped, a missing profile aborts with an error. -/
def applyProfiles (table : List (String × Smap)) :
    List String → MergeState → Except String MergeState
  | [], st => .ok st
  | n :: rest, st =>
    if n = "general" then applyProfiles table rest st
    else
      match lookupA table n with
      | none => .error ("profile [" ++ n ++ "] not found in .mappings")
      | some p => applyProfiles table rest (p.foldl applyEntry st)

/-- `Config.GetProfiles`: default the request to `[general]`, seed from
the `[general]` profile, then apply the requested profiles in order. -/
def getProfiles (table : List (String × Smap)) (names : List String) :
    Except String Smap :=
  let names' := if names.isEmpty then ["general"] else names
  let st0 : MergeState :=
    match lookupA table "general" with
    | some general => general.foldl seedEntry { result := [], tts := [] }
    | none => { result := [], tts := [] }
  (applyProfiles table names' st0).map MergeState.result

/-- A filesystem entry, as distinguished by the linker: a symbolic link
with its raw stored target string, or any non-symlink entry (regular
file resp. directory). -/
inductive FsEntry
  | file
  | dir
  | symlink (target : String)
  deriving Repr, DecidableEq

/-- The filesystem: a finite map from atomic path strings to entries. -/
abbrev Fs := List (String × FsEntry)

/-- Result of an `os.Stat` call: success with the resolved entry,
the not-exist error (`os.IsNotExist`), or any other error (e.g. a
symlink loop). -/
inductive StatRes
  | ok (e : FsEntry)
  | notExist
  | err
  deriving Repr, DecidableEq

/-- Symlink-resolution fuel for `os.Stat` (the OS symlink-loop limit). -/
def statFuel : Nat := 40

/-- `os.Stat`: follows symlink chains; a dangling link is not-exist,
a chain longer than the fuel is a non-not-exist error. -/
def statR (fs : Fs) : Nat → String → StatRes
  | 0, _ => .err
  | fuel + 1, p =>
    match lookupA fs p with
    | none => .notExist
    | some (.symlink t) => statR fs fuel t
    | some e => .ok e

/-- `os.Readlink`: the raw stored target of a symlink, error otherwise. -/
def readlinkOp (fs : Fs) (p : String) : Option String :=
  match lookupA fs p with
  | some (.symlink t) => some t
  | _ => none

/-- `os.Remove`: errors when the entry is absent. -/
def removeOp (fs : Fs) (p : String) : Option Fs :=
  match lookupA fs p with
  | none => none
  | some _ => some (eraseA fs p)

/-- `os.RemoveAll`: never errors on absence. -/
def removeAllOp (fs : Fs) (p : String) : Fs :=
  eraseA fs p

/-- `os.Rename`: errors when the source entry is absent. -/
def renameOp (fs : Fs) (old new : String) : Option Fs :=
  match lookupA fs old with
  | none => none
  | some e => some (insertA (eraseA fs old) new e)

/-- `os.Symlink oldname newname`: errors when `newname` already exists
(even as a dangling symlink). -/
def symlinkOp (fs : Fs) (oldname newname : String) : Option Fs :=
  match lookupA fs newname with
  | some _ => none
  | none => some (insertA fs newname (.symlink oldname))

/-- `os.MkdirAll`: a no-op on an existing directory (after following
links), an error on an existing non-directory, otherwise creates the
directory entry.  (Ancestor creation is collapsed into the single
atomic path.) -/
def mkdirAll (fs : Fs) (p : String) : Option Fs :=
  match statR fs statFuel p with
  | .ok .dir => some fs
  | .ok _ => none
  | .err => none
  | .notExist => some (insertA fs p .dir)

/-- `utils.BackupFile`: remove a previous `.bak` entry if `os.Stat`
sees one, then rename the entry to its `.bak` path. -/
def backupFile (fs : Fs) (p : String) : Option Fs :=
  let bak := p ++ ".bak"
  let fs1 :=
    match statR fs statFuel bak with
    | .ok _ => removeAllOp fs bak
    | _ => fs
  renameOp fs1 p bak

/-- The per-entry report lines emitted by `Link`, `Clean` and `Check`
(stdout and stderr lines, abstracted to their constructors). -/
inductive Report
  | warnMissingSource (src : String)
  | skippedCorrect (target src : String)
  | errReadLink (target : String)
  | overriding (target oldTarget : String)
  | errRemoving (target : String)
  | backedUp (target : String)
  | errBackup (target : String)
  | wouldCreate (target src : String)
  | errMkdir (target : String)
  | errSymlink (target src : String)
  | created (target src : String)
  | skippedNotFound (target : String)
  | skippedNotSymlink (target : String)
  | removed (target : String)
  | errRemove (target : String)
  | missingLink (target : String)
  | notASymlink (target : String)
  | incorrectLink (target actual expected : String)
  deriving Repr, DecidableEq

/-- The link-creation tail of one `Link` iteration (the code after the
existing-target handling): dry-run reports only; otherwise `MkdirAll`
on the target's parent, then `Symlink`. -/
def createStep (dryRun : Bool) (fs : Fs) (targetPath sourcePath : String)
    (rs : List Report) : Fs × List Report :=
  if dryRun then (fs, rs ++ [.wouldCreate targetPath sourcePath])
  else
    match mkdirAll fs (dirOf targetPath) with
    | none => (fs, rs ++ [.errMkdir targetPath])
    | some fs1 =>
      match symlinkOp fs1 sourcePath targetPath with
      | none => (fs1, rs ++ [.errSymlink targetPath sourcePath])
      | some fs2 => (fs2, rs ++ [.created targetPath sourcePath])

/-- One iteration of the `Link` loop over a flattened-mapping entry
`(source, target)`: skip on a missing source, classify the existing
target (correct link / wrong link / non-symlink), then create. -/
def linkEntry (root : String) (home : Option String) (dryRun : Bool)
    (fs : Fs) (e : String × String) : Fs × List Report :=
  let targetPath := expandPath home e.2
  let sourcePath := goJoin root e.1
  match statR fs statFuel sourcePath with
  | .notExist => (fs, [.warnMissingSource sourcePath])
  | _ =>
    match lookupA fs targetPath with
    | some (.symlink _) =>
      match readlinkOp fs targetPath with
      | none => (fs, [.errReadLink targetPath])
      | some linkTarget =>
        if linkTarget = sourcePath then
          (fs, [.skippedCorrect targetPath sourcePath])
        else
          if dryRun then
            createStep dryRun fs targetPath sourcePath
              [.overriding targetPath linkTarget]
          else
            match removeOp fs targetPath with
            | none => (fs, [.errRemoving targetPath])
            | some fs' =>
              createStep dryRun fs' targetPath sourcePath
                [.overriding targetPath linkTarget]
    | some _ =>
      if dryRun then
        createStep dryRun fs targetPath sourcePath [.backedUp targetPath]
      else
        match backupFile fs targetPath with
        | none => (fs, [.errBackup targetPath])
        | some fs' =>
          createStep dryRun fs' targetPath sourcePath [.backedUp targetPath]
    | none => createStep dryRun fs targetPath sourcePath []

/-- The `Link` reconciliation loop over a flattened mapping. -/
def linkCore (root : String) (home : Option String) (dryRun : Bool) :
    Fs → Smap → Fs × List Report
  | fs, [] => (fs, [])
  | fs, e :: rest =>
    let r := linkEntry root home dryRun fs e
    let rr := linkCore root home dryRun r.1 rest
    (rr.1, r.2 ++ rr.2)

/-- `Link`: resolve the profiles, then reconcile; a profile-resolution
error aborts before the loop, leaving the filesystem untouched. -/
def linkRun (root : String) (home : Option String) (dryRun : Bool)
    (fs : Fs) (table : List (String × Smap)) (names : List String) :
    Fs × Except String (List Report) :=
  match getProfiles table names with
  | .error e => (fs, .error e)
  | .ok m =>
    let r := linkCore root home dryRun fs m
    (r.1, .ok r.2)

/-- One iteration of the `Clean` loop: skip absent targets and
non-symlinks, remove symlinks (correct or not). -/
def cleanEntry (home : Option String) (fs : Fs) (e : String × String) :
    Fs × List Report :=
  let targetPath := expandPath home e.2
  match lookupA fs targetPath with
  | none => (fs, [.skippedNotFound targetPath])
  | some (.symlink _) =>
    match removeOp fs targetPath with
    | none => (fs, [.errRemove targetPath])
    | some fs' => (fs', [.removed targetPath])
  | some _ => (fs, [.skippedNotSymlink targetPath])

/-- The `Clean` loop over a flattened mapping. -/
def cleanCore (home : Option String) : Fs → Smap → Fs × List Report
  | fs, [] => (fs, [])
  | fs, e :: rest =>
    let r := cleanEntry home fs e
    let rr := cleanCore home r.1 rest
    (rr.1, r.2 ++ rr.2)

/-- `Clean`: resolve the profiles, then remove; after a successful
profile resolution it always returns success (per-entry problems are
only reported). -/
def cleanRun (home : Option String) (fs : Fs)
    (table : List (String × Smap)) (names : List String) :
    Fs × Except String (List Report) :=
  match getProfiles table names with
  | .error e => (fs, .error e)
  | .ok m =>
    let r := cleanCore home fs m
    (r.1, .ok r.2)

/-- One iteration of the `Check` loop: the issue reported for an entry,
or `none` when the target is a symlink whose raw stored target equals
the expected source path byte for byte. -/
def checkEntry (root : String) (home : Option String) (fs : Fs)
    (e : String × String) : Option Report :=
  let targetPath := expandPath home e.2
  let sourcePath := goJoin root e.1
  match lookupA fs targetPath with
  | none => some (.missingLink targetPath)
  | some (.symlink _) =>
    match readlinkOp fs targetPath with
    | none => some (.errReadLink targetPath)
    | some linkTarget =>
      if linkTarget = sourcePath then none
      else some (.incorrectLink targetPath linkTarget sourcePath)
  | some _ => some (.notASymlink targetPath)

/-- `Check` over a flattened mapping: accumulate the per-entry issues;
mutate nothing; fail with the issue count exactly when issues exist. -/
def checkRun (root : String) (home : Option String) (fs : Fs) (m : Smap) :
    Fs × Option String :=
  let issues := m.filterMap (checkEntry root home fs)
  (fs,
    if issues.isEmpty then none
    else some ("found " ++ toString issues.length ++ " issue(s)"))

/-! ## Merge-invariant machinery (claims about `GetProfiles`) -/

/-- Uniqueness invariant of the merge loop: no two distinct sources map
to one target, and the reverse index knows every live target's source. -/
def UniqInv (st : MergeState) : Prop :=
  (∀ s₁ s₂ t, lookupA st.result s₁ = some t → lookupA st.result s₂ = some t → s₁ = s₂)
  ∧ (∀ s t, lookupA st.result s = some t → lookupA st.tts t = some s)

theorem uniqInv_empty : UniqInv { result := [], tts := [] } := by
  constructor
  · intro s₁ s₂ t h₁
    simp [lookupA] at h₁
  · intro s t h
    simp [lookupA] at h

theorem uniqInv_applyEntry (st : MergeState) (e : String × String)
    (h : UniqInv st) : UniqInv (applyEntry st e) := by
  obtain ⟨ha, hb⟩ := h
  obtain ⟨src, target⟩ := e
  unfold applyEntry
  cases htts : lookupA st.tts target with
  | some oldSrc =>
    constructor
    · intro s₁ s₂ t h₁ h₂
      simp only [htts, lookupA_insertA, lookupA_eraseA] at h₁ h₂
      by_cases e₁ : s₁ = src <;> by_cases e₂ : s₂ = src
      · exact e₁.trans e₂.symm
      · rw [if_pos e₁] at h₁
        rw [if_neg e₂] at h₂
        by_cases o₂ : s₂ = oldSrc
        · rw [if_pos o₂] at h₂; cases h₂
        · rw [if_neg o₂] at h₂
          cases h₁
          have := hb s₂ target h₂
          rw [htts] at this
          exact absurd (Option.some.inj this).symm o₂
      · rw [if_pos e₂] at h₂
        rw [if_neg e₁] at h₁
        by_cases o₁ : s₁ = oldSrc
        · rw [if_pos o₁] at h₁; cases h₁
        · rw [if_neg o₁] at h₁
          cases h₂
          have := hb s₁ target h₁
          rw [htts] at this
          exact absurd (Option.some.inj this).symm o₁
      · rw [if_neg e₁] at h₁
        rw [if_neg e₂] at h₂
        by_cases o₁ : s₁ = oldSrc
        · rw [if_pos o₁] at h₁; cases h₁
        · by_cases o₂ : s₂ = oldSrc
          · rw [if_pos o₂] at h₂; cases h₂
          · rw [if_neg o₁] at h₁
            rw [if_neg o₂] at h₂
            exact ha s₁ s₂ t h₁ h₂
    · intro s t h
      simp only [htts, lookupA_insertA, lookupA_eraseA] at h ⊢
      by_cases es : s = src
      · rw [if_pos es] at h
        cases h
        simp [es]
      · rw [if_neg es] at h
        by_cases os : s = oldSrc
        · rw [if_pos os] at h; cases h
        · rw [if_neg os] at h
          have hts := hb s t h
          by_cases ht : t = target
          · subst ht
            rw [htts] at hts
            exact absurd (Option.some.inj hts).symm os
          · rw [if_neg ht]
            exact hts
  | none =>
    have hnone : ∀ s, lookupA st.result s ≠ some target := by
      intro s hcon
      have := hb s target hcon
      rw [htts] at this
      cases this
    constructor
    · intro s₁ s₂ t h₁ h₂
      simp only [htts, lookupA_insertA] at h₁ h₂
      by_cases e₁ : s₁ = src <;> by_cases e₂ : s₂ = src
      · exact e₁.trans e₂.symm
      · rw [if_pos e₁] at h₁
        rw [if_neg e₂] at h₂
        cases h₁
        exact absurd h₂ (hnone s₂)
      · rw [if_pos e₂] at h₂
        rw [if_neg e₁] at h₁
        cases h₂
        exact absurd h₁ (hnone s₁)
      · rw [if_neg e₁] at h₁
        rw [if_neg e₂] at h₂
        exact ha s₁ s₂ t h₁ h₂
    · intro s t h
      simp only [htts, lookupA_insertA] at h ⊢
      by_cases es : s = src
      · rw [if_pos es] at h
        cases h
        simp [es]
      · rw [if_neg es] at h
        by_cases ht : t = target
        · subst ht
          exact absurd h (hnone s)
        · rw [if_neg ht]
          exact hb s t h

theorem uniqInv_foldl (l : Smap) :
    ∀ st : MergeState, UniqInv st → UniqInv (l.foldl applyEntry st) := by
  induction l with
  | nil => intro st h; exact h
  | cons e rest ih =>
    intro st h
    exact ih (applyEntry st e) (uniqInv_applyEntry st e h)

/-- Under distinct targets, the seeding loop coincides with the
override loop (the reverse-index lookup never fires). -/
theorem seedFold_eq_applyFold (l : Smap) :
    ∀ st : MergeState, (l.map Prod.snd).Nodup →
    (∀ t ∈ l.map Prod.snd, lookupA st.tts t = none) →
    l.foldl seedEntry st = l.foldl applyEntry st := by
  induction l with
  | nil => intro st _ _; rfl
  | cons e rest ih =>
    intro st hnd hfresh
    have hfe : lookupA st.tts e.2 = none := hfresh e.2 (by simp)
    have hstep : seedEntry st e = applyEntry st e := by
      simp [seedEntry, applyEntry, hfe]
    simp only [List.foldl_cons, hstep]
    apply ih
    · exact (List.nodup_cons.mp (by simpa using hnd)).2
    · intro t ht
      have hne : t ≠ e.2 := by
        intro hcon
        subst hcon
        exact (List.nodup_cons.mp (by simpa using hnd)).1 ht
      simp only [applyEntry]
      rw [lookupA_insertA]
      rw [if_neg hne]
      exact hfresh t (by simp [ht])

theorem uniqInv_applyProfiles (table : List (String × Smap)) :
    ∀ (ns : List String) (st st' : MergeState), UniqInv st →
    applyProfiles table ns st = .ok st' → UniqInv st' := by
  intro ns
  induction ns with
  | nil =>
    intro st st' h heq
    simp only [applyProfiles] at heq
    cases heq
    exact h
  | cons n rest ih =>
    intro st st' h heq
    simp only [applyProfiles] at heq
    by_cases hn : n = "general"
    · rw [if_pos hn] at heq
      exact ih st st' h heq
    · rw [if_neg hn] at heq
      cases hp : lookupA table n with
      | none => rw [hp] at heq; cases heq
      | some p =>
        rw [hp] at heq
        exact ih _ st' (uniqInv_foldl p st h) heq

theorem getProfiles_target_unique_aux
    (table : List (String × Smap)) (ns : List String) (st0 : MergeState)
    (m : Smap) (hinv : UniqInv st0)
    (hok : (applyProfiles table ns st0).map MergeState.result = .ok m) :
    ∀ s₁ s₂ t, lookupA m s₁ = some t → lookupA m s₂ = some t → s₁ = s₂ := by
  cases happ : applyProfiles table ns st0 with
  | error e =>
    rw [happ] at hok
    cases hok
  | ok st' =>
    rw [happ] at hok
    simp only [Except.map] at hok
    cases hok
    exact (uniqInv_applyProfiles table ns st0 st' hinv happ).1

/-- C1 (amended): whenever the `[general]` profile maps no two distinct
sources to one target, every successful `GetProfiles` result maps at
most one source to any target. -/
theorem getProfiles_target_unique
    (table : List (String × Smap)) (names : List String) (m : Smap)
    (hgen : ∀ g, lookupA table "general" = some g → (g.map Prod.snd).Nodup)
    (hok : getProfiles table names = .ok m) :
    ∀ s₁ s₂ t, lookupA m s₁ = some t → lookupA m s₂ = some t → s₁ = s₂ := by
  cases hg : lookupA table "general" with
  | none =>
    have hok' : (applyProfiles table (if names.isEmpty then ["general"] else names)
        { result := [], tts := [] }).map MergeState.result = .ok m := by
      unfold getProfiles at hok
      rw [hg] at hok
      exact hok
    exact getProfiles_target_unique_aux table _ _ m uniqInv_empty hok'
  | some g =>
    have hok' : (applyProfiles table (if names.isEmpty then ["general"] else names)
        (g.foldl seedEntry { result := [], tts := [] })).map MergeState.result
        = .ok m := by
      unfold getProfiles at hok
      rw [hg] at hok
      exact hok
    have hinv : UniqInv (g.foldl seedEntry { result := [], tts := [] }) := by
      rw [seedFold_eq_applyFold g { result := [], tts := [] } (hgen g hg)
          (fun t _ => by simp [lookupA])]
      exact uniqInv_foldl g _ uniqInv_empty
    exact getProfiles_target_unique_aux table _ _ m hinv hok'

/-- Witness for C1 (amended) at a concrete table: the `[work]` profile
overrides the `[general]` mapping for target `t`. -/
theorem getProfiles_target_unique_witness :
    getProfiles [("general", [("a", "t")]), ("work", [("b", "t")])] ["work"]
      = .ok [("b", "t")] ∧ ("b" : String) = "b" := by
  constructor
  · rfl
  · exact getProfiles_target_unique
      [("general", [("a", "t")]), ("work", [("b", "t")])] ["work"] [("b", "t")]
      (fun g hg => by cases hg; decide) rfl "b" "b" "t" rfl rfl

/-- C1 counterexample: with two `[general]` entries sharing one target,
`GetProfiles` returns a mapping in which two distinct sources map to
the same target. -/
theorem getProfiles_target_unique_cex :
    getProfiles [("general", [("s1", "t"), ("s2", "t")])] []
      = .ok [("s2", "t"), ("s1", "t")]
    ∧ lookupA [("s2", "t"), ("s1", "t")] "s1" = some "t"
    ∧ lookupA [("s2", "t"), ("s1", "t")] "s2" = some "t"
    ∧ ("s1" : String) ≠ "s2" := by
  refine ⟨rfl, rfl, rfl, by decide⟩

/-! ## Path resolver (C10) -/

/-- C10: a path that starts with the home marker but is neither exactly
`~` nor `~/`-prefixed (e.g. `~user/x`) is returned unchanged by
`ExpandPath`, even when the home directory is available. -/
theorem expandPath_other_user_unchanged (home p : String)
    (h1 : hasPrefixGo p "~" = true) (h2 : p ≠ "~")
    (h3 : hasPrefixGo p "~/" = false) :
    expandPath (some home) p = p := by
  simp [expandPath, h1, h2, h3]

theorem expandPath_other_user_unchanged_witness :
    expandPath (some "/test/home") "~user/x" = "~user/x" :=
  expandPath_other_user_unchanged "/test/home" "~user/x"
    (by decide) (by decide) (by decide)

/-! ## Default-first invariant (C2) -/

/-- C2: the position of the default profile name in the requested list
never changes precedence: requesting `[P, general]` and `[general, P]`
yields identical results for any profile `P` present in the table. -/
theorem getProfiles_default_position_irrelevant
    (table : List (String × Smap)) (P : String)
    (hP : ∃ p, lookupA table P = some p) :
    getProfiles table [P, "general"] = getProfiles table ["general", P] := by
  obtain ⟨p, hp⟩ := hP
  by_cases hPg : P = "general"
  · subst hPg
    rfl
  · unfold getProfiles
    simp only [List.isEmpty, applyProfiles, if_neg hPg, hp, eq_self_iff_true,
      if_true]

/-- Witness for C2 at a concrete table where `[work]` conflicts with
`[general]` on the target `t1`. -/
theorem getProfiles_default_position_irrelevant_witness :
    getProfiles [("general", [("a", "t1")]), ("work", [("b", "t1")])]
        ["work", "general"]
      = getProfiles [("general", [("a", "t1")]), ("work", [("b", "t1")])]
        ["general", "work"] :=
  getProfiles_default_position_irrelevant
    [("general", [("a", "t1")]), ("work", [("b", "t1")])] "work" ⟨_, rfl⟩

/-! ## Dry-run is a no-op (C4) -/

theorem linkEntry_dry_fst (root : String) (home : Option String)
    (fs : Fs) (e : String × String) :
    (linkEntry root home true fs e).1 = fs := by
  cases hS : statR fs statFuel (goJoin root e.1) with
  | notExist => simp [linkEntry, hS]
  | ok ent =>
    cases hT : lookupA fs (expandPath home e.2) with
    | none => simp [linkEntry, createStep, hS, hT]
    | some ent' =>
      cases ent' with
      | file => simp [linkEntry, createStep, hS, hT]
      | dir => simp [linkEntry, createStep, hS, hT]
      | symlink t =>
        by_cases hEq : t = goJoin root e.1 <;>
          simp [linkEntry, createStep, readlinkOp, hS, hT, hEq]
  | err =>
    cases hT : lookupA fs (expandPath home e.2) with
    | none => simp [linkEntry, createStep, hS, hT]
    | some ent' =>
      cases ent' with
      | file => simp [linkEntry, createStep, hS, hT]
      | dir => simp [linkEntry, createStep, hS, hT]
      | symlink t =>
        by_cases hEq : t = goJoin root e.1 <;>
          simp [linkEntry, createStep, readlinkOp, hS, hT, hEq]

theorem linkCore_dry_fst (root : String) (home : Option String) :
    ∀ (m : Smap) (fs : Fs), (linkCore root home true fs m).1 = fs := by
  intro m
  induction m with
  | nil => intro fs; rfl
  | cons e rest ih =>
    intro fs
    simp only [linkCore]
    rw [ih, linkEntry_dry_fst]

/-- C4: `Link` with `dryRun = true` performs no filesystem mutation —
no symlink creation, removal, rename/backup or directory creation —
for any flattened mapping, any profile table and any prior state. -/
theorem link_dryRun_no_mutation (root : String) (home : Option String)
    (fs : Fs) :
    (∀ m : Smap, (linkCore root home true fs m).1 = fs)
    ∧ (∀ (table : List (String × Smap)) (names : List String),
        (linkRun root home true fs table names).1 = fs) := by
  constructor
  · intro m
    exact linkCore_dry_fst root home m fs
  · intro table names
    unfold linkRun
    cases getProfiles table names with
    | error e => rfl
    | ok m => simp [linkCore_dry_fst root home m fs]

/-! ## Profile-not-found error and early abort (C3) -/

theorem applyProfiles_error_iff (table : List (String × Smap)) :
    ∀ (ns : List String) (st : MergeState),
    (∃ e, applyProfiles table ns st = .error e)
      ↔ ∃ n ∈ ns, n ≠ "general" ∧ lookupA table n = none := by
  intro ns
  induction ns with
  | nil =>
    intro st
    simp [applyProfiles]
  | cons n rest ih =>
    intro st
    simp only [applyProfiles]
    by_cases hn : n = "general"
    · rw [if_pos hn]
      rw [ih st]
      constructor
      · rintro ⟨n', hn', hne, hnone⟩
        exact ⟨n', List.mem_cons_of_mem n hn', hne, hnone⟩
      · rintro ⟨n', hn', hne, hnone⟩
        cases List.mem_cons.mp hn' with
        | inl h => subst h; exact absurd hn hne
        | inr h => exact ⟨n', h, hne, hnone⟩
    · rw [if_neg hn]
      cases hp : lookupA table n with
      | none =>
        constructor
        · intro _
          exact ⟨n, List.mem_cons_self n rest, hn, hp⟩
        · intro _
          exact ⟨_, rfl⟩
      | some p =>
        rw [ih (p.foldl applyEntry st)]
        constructor
        · rintro ⟨n', hn', hne, hnone⟩
          exact ⟨n', List.mem_cons_of_mem n hn', hne, hnone⟩
        · rintro ⟨n', hn', hne, hnone⟩
          cases List.mem_cons.mp hn' with
          | inl h =>
            subst h
            rw [hp] at hnone
            cases hnone
          | inr h => exact ⟨n', h, hne, hnone⟩

theorem applyProfiles_error_msg (table : List (String × Smap)) :
    ∀ (ns : List String) (st : MergeState) (e : String),
    applyProfiles table ns st = .error e →
    ∃ n ∈ ns, n ≠ "general" ∧ lookupA table n = none
      ∧ e = "profile [" ++ n ++ "] not found in .mappings" := by
  intro ns
  induction ns with
  | nil =>
    intro st e h
    cases h
  | cons n rest ih =>
    intro st e h
    simp only [applyProfiles] at h
    by_cases hn : n = "general"
    · rw [if_pos hn] at h
      obtain ⟨n', hn', hne, hnone, hmsg⟩ := ih st e h
      exact ⟨n', List.mem_cons_of_mem n hn', hne, hnone, hmsg⟩
    · rw [if_neg hn] at h
      cases hp : lookupA table n with
      | none =>
        rw [hp] at h
        cases h
        exact ⟨n, List.mem_cons_self n rest, hn, hp, rfl⟩
      | some p =>
        rw [hp] at h
        obtain ⟨n', hn', hne, hnone, hmsg⟩ := ih (p.foldl applyEntry st) e h
        exact ⟨n', List.mem_cons_of_mem n hn', hne, hnone, hmsg⟩

theorem getProfiles_error_elim (table : List (String × Smap))
    (names : List String) (e : String)
    (h : getProfiles table names = .error e) :
    applyProfiles table (if names.isEmpty then ["general"] else names)
      (match lookupA table "general" with
       | some general => general.foldl seedEntry { result := [], tts := [] }
       | none => { result := [], tts := [] }) = .error e := by
  have h' : (applyProfiles table (if names.isEmpty then ["general"] else names)
      (match lookupA table "general" with
       | some general => general.foldl seedEntry { result := [], tts := [] }
       | none => { result := [], tts := [] })).map MergeState.result
      = .error e := h
  cases happ : applyProfiles table (if names.isEmpty then ["general"] else names)
      (match lookupA table "general" with
       | some general => general.foldl seedEntry { result := [], tts := [] }
       | none => { result := [], tts := [] }) with
  | error e' =>
    rw [happ] at h'
    simp only [Except.map] at h'
    cases h'
    rfl
  | ok st' =>
    rw [happ] at h'
    simp only [Except.map] at h'
    cases h'

/-- C3: `GetProfiles` fails with a profile-not-found error naming the
missing profile exactly when some requested name other than `general`
is absent from the table, and on such a failure `Link` aborts before
the reconciliation loop, performing zero filesystem operations. -/
theorem getProfiles_error_iff_link_noop
    (table : List (String × Smap)) (names : List String)
    (root : String) (home : Option String) (dryRun : Bool) (fs : Fs) :
    ((∃ e, getProfiles table names = .error e)
      ↔ ∃ n ∈ names, n ≠ "general" ∧ lookupA table n = none)
    ∧ (∀ e, getProfiles table names = .error e →
        (∃ n ∈ names, n ≠ "general" ∧ lookupA table n = none
          ∧ e = "profile [" ++ n ++ "] not found in .mappings")
        ∧ linkRun root home dryRun fs table names = (fs, .error e)) := by
  constructor
  · cases names with
    | nil =>
      constructor
      · rintro ⟨e, he⟩
        have := getProfiles_error_elim table [] e he
        have h2 := (applyProfiles_error_iff table ["general"] _).mp ⟨e, by simpa using this⟩
        obtain ⟨n, hn, hne, _⟩ := h2
        simp at hn
        exact absurd hn hne
      · rintro ⟨n, hn, _, _⟩
        simp at hn
    | cons n0 rest =>
      constructor
      · rintro ⟨e, he⟩
        have := getProfiles_error_elim table (n0 :: rest) e he
        exact (applyProfiles_error_iff table (n0 :: rest) _).mp ⟨e, by simpa using this⟩
      · intro hex
        obtain ⟨e, he⟩ := (applyProfiles_error_iff table (n0 :: rest)
          (match lookupA table "general" with
           | some general => general.foldl seedEntry { result := [], tts := [] }
           | none => { result := [], tts := [] })).mpr hex
        refine ⟨e, ?_⟩
        show (applyProfiles table (n0 :: rest)
            (match lookupA table "general" with
             | some general => general.foldl seedEntry { result := [], tts := [] }
             | none => { result := [], tts := [] })).map MergeState.result
          = .error e
        rw [he]
        rfl
  · intro e he
    constructor
    · have h1 := getProfiles_error_elim table names e he
      have h2 := applyProfiles_error_msg table _ _ e h1
      obtain ⟨n, hn, hne, hnone, hmsg⟩ := h2
      cases names with
      | nil =>
        simp at hn
        exact absurd hn hne
      | cons n0 rest =>
        simp only [List.isEmpty] at hn
        exact ⟨n, by simpa using hn, hne, hnone, hmsg⟩
    · unfold linkRun
      rw [he]

/-- Witness for C3: requesting a nonexistent profile aborts `Link`
with the naming error and leaves the (empty) filesystem untouched. -/
theorem getProfiles_error_iff_link_noop_witness :
    linkRun "/r" (some "/h") false [] [("general", [])] ["doesnotexist"]
      = ([], .error "profile [doesnotexist] not found in .mappings") :=
  ((getProfiles_error_iff_link_noop [("general", [])] ["doesnotexist"]
      "/r" (some "/h") false []).2
    "profile [doesnotexist] not found in .mappings" rfl).2

/-! ## Check: pure, aggregate error with issue count (C8) -/

/-- C8: `Check` mutates nothing, succeeds exactly when every entry is
issue-free, and otherwise fails with the total count of accumulated
issues. -/
theorem check_no_mutation_error_iff_count (root : String)
    (home : Option String) (fs : Fs) (m : Smap) :
    (checkRun root home fs m).1 = fs
    ∧ ((checkRun root home fs m).2 = none
        ↔ ∀ e ∈ m, checkEntry root home fs e = none)
    ∧ ((∃ e ∈ m, checkEntry root home fs e ≠ none) →
        (checkRun root home fs m).2
          = some ("found "
              ++ toString (m.filterMap (checkEntry root home fs)).length
              ++ " issue(s)")) := by
  refine ⟨rfl, ?_, ?_⟩
  · show (if (m.filterMap (checkEntry root home fs)).isEmpty then none
        else some ("found "
            ++ toString (m.filterMap (checkEntry root home fs)).length
            ++ " issue(s)"))
      = (none : Option String) ↔ ∀ e ∈ m, checkEntry root home fs e = none
    by_cases hemp : m.filterMap (checkEntry root home fs) = []
    · rw [if_pos (List.isEmpty_iff.mpr hemp)]
      constructor
      · intro _
        exact List.filterMap_eq_nil_iff.mp hemp
      · intro _
        rfl
    · rw [if_neg (fun hcon => hemp (List.isEmpty_iff.mp hcon))]
      constructor
      · intro h
        cases h
      · intro hall
        exact absurd (List.filterMap_eq_nil_iff.mpr hall) hemp
  · rintro ⟨e, hmem, hne⟩
    have hemp : m.filterMap (checkEntry root home fs) ≠ [] := by
      intro hcon
      exact hne (List.filterMap_eq_nil_iff.mp hcon e hmem)
    show (if (m.filterMap (checkEntry root home fs)).isEmpty then none
        else some ("found "
            ++ toString (m.filterMap (checkEntry root home fs)).length
            ++ " issue(s)"))
      = some ("found "
          ++ toString (m.filterMap (checkEntry root home fs)).length
          ++ " issue(s)")
    rw [if_neg (fun hcon => hemp (List.isEmpty_iff.mp hcon))]

/-- Witness for C8: one missing link yields the error with count 1. -/
theorem check_no_mutation_error_iff_count_witness :
    (checkRun "/r" (some "/h") [] [("s", "t")]).2 = some "found 1 issue(s)" := by
  have h := (check_no_mutation_error_iff_count "/r" (some "/h") [] [("s", "t")]).2.2
    ⟨("s", "t"), by simp, by decide⟩
  rw [h]
  rfl

/-! ## Byte-exact symlink comparison (C7) -/

/-- C7: with a symlink at the (expanded) target storing raw string `ℓ`,
both `Check` and `Link` classify the entry as correct exactly when `ℓ`
equals the expected source path as a plain string — no normalisation —
and `Check` carries the actual stored target in its issue. -/
theorem symlink_comparison_byte_exact (fs : Fs) (root : String)
    (home : Option String) (s t ℓ : String)
    (hT : lookupA fs (expandPath home t) = some (.symlink ℓ)) :
    (checkEntry root home fs (s, t) = none ↔ ℓ = goJoin root s)
    ∧ (ℓ ≠ goJoin root s →
        checkEntry root home fs (s, t)
          = some (.incorrectLink (expandPath home t) ℓ (goJoin root s)))
    ∧ (∀ dryRun, statR fs statFuel (goJoin root s) ≠ .notExist →
        ((linkEntry root home dryRun fs (s, t)).2
            = [.skippedCorrect (expandPath home t) (goJoin root s)]
          ↔ ℓ = goJoin root s)) := by
  refine ⟨?_, ?_, ?_⟩
  · by_cases hEq : ℓ = goJoin root s <;>
      simp [checkEntry, readlinkOp, hT, hEq]
  · intro hne
    simp [checkEntry, readlinkOp, hT, hne]
  · intro dryRun hstat
    by_cases hEq : ℓ = goJoin root s
    · cases hS : statR fs statFuel (goJoin root s) with
      | notExist => exact absurd hS hstat
      | ok ent => simp [linkEntry, readlinkOp, hS, hT, hEq]
      | err => simp [linkEntry, readlinkOp, hS, hT, hEq]
    · constructor
      · intro hrep
        exfalso
        cases hS : statR fs statFuel (goJoin root s) with
        | notExist => exact hstat hS
        | ok ent =>
          cases dryRun with
          | true =>
            rw [show (linkEntry root home true fs (s, t)).2
                = [.overriding (expandPath home t) ℓ,
                   .wouldCreate (expandPath home t) (goJoin root s)] from by
                simp [linkEntry, createStep, readlinkOp, hS, hT, hEq]] at hrep
            cases hrep
          | false =>
            cases hrem : removeOp fs (expandPath home t) with
            | none =>
              rw [show (linkEntry root home false fs (s, t)).2
                  = [.errRemoving (expandPath home t)] from by
                  simp [linkEntry, createStep, readlinkOp, hS, hT, hEq, hrem]] at hrep
              cases hrep
            | some fs' =>
              cases hmk : mkdirAll fs' (dirOf (expandPath home t)) with
              | none =>
                rw [show (linkEntry root home false fs (s, t)).2
                    = [.overriding (expandPath home t) ℓ,
                       .errMkdir (expandPath home t)] from by
                    simp [linkEntry, createStep, readlinkOp, hS, hT, hEq, hrem, hmk]] at hrep
                cases hrep
              | some fs1 =>
                cases hsym : symlinkOp fs1 (goJoin root s) (expandPath home t) with
                | none =>
                  rw [show (linkEntry root home false fs (s, t)).2
                      = [.overriding (expandPath home t) ℓ,
                         .errSymlink (expandPath home t) (goJoin root s)] from by
                      simp [linkEntry, createStep, readlinkOp, hS, hT, hEq, hrem, hmk,
                        hsym]] at hrep
                  cases hrep
                | some fs2 =>
                  rw [show (linkEntry root home false fs (s, t)).2
                      = [.overriding (expandPath home t) ℓ,
                         .created (expandPath home t) (goJoin root s)] from by
                      simp [linkEntry, createStep, readlinkOp, hS, hT, hEq, hrem, hmk,
                        hsym]] at hrep
                  cases hrep
        | err =>
          cases dryRun with
          | true =>
            rw [show (linkEntry root home true fs (s, t)).2
                = [.overriding (expandPath home t) ℓ,
                   .wouldCreate (expandPath home t) (goJoin root s)] from by
                simp [linkEntry, createStep, readlinkOp, hS, hT, hEq]] at hrep
            cases hrep
          | false =>
            cases hrem : removeOp fs (expandPath home t) with
            | none =>
              rw [show (linkEntry root home false fs (s, t)).2
                  = [.errRemoving (expandPath home t)] from by
                  simp [linkEntry, createStep, readlinkOp, hS, hT, hEq, hrem]] at hrep
              cases hrep
            | some fs' =>
              cases hmk : mkdirAll fs' (dirOf (expandPath home t)) with
              | none =>
                rw [show (linkEntry root home false fs (s, t)).2
                    = [.overriding (expandPath home t) ℓ,
                       .errMkdir (expandPath home t)] from by
                    simp [linkEntry, createStep, readlinkOp, hS, hT, hEq, hrem, hmk]] at hrep
                cases hrep
              | some fs1 =>
                cases hsym : symlinkOp fs1 (goJoin root s) (expandPath home t) with
                | none =>
                  rw [show (linkEntry root home false fs (s, t)).2
                      = [.overriding (expandPath home t) ℓ,
                         .errSymlink (expandPath home t) (goJoin root s)] from by
                      simp [linkEntry, createStep, readlinkOp, hS, hT, hEq, hrem, hmk,
                        hsym]] at hrep
                  cases hrep
                | some fs2 =>
                  rw [show (linkEntry root home false fs (s, t)).2
                      = [.overriding (expandPath home t) ℓ,
                         .created (expandPath home t) (goJoin root s)] from by
                      simp [linkEntry, createStep, readlinkOp, hS, hT, hEq, hrem, hmk,
                        hsym]] at hrep
                  cases hrep
      · intro hcon
        exact absurd hcon hEq

/-- Witness for C7: a stored target differing from the expected source
only by a trailing slash is classified as an incorrect link. -/
theorem symlink_comparison_byte_exact_witness :
    checkEntry "/r" (some "/h")
        [("/h/.vimrc", .symlink "/r/vim/.vimrc/")] ("vim/.vimrc", "~/.vimrc")
      = some (.incorrectLink "/h/.vimrc" "/r/vim/.vimrc/" "/r/vim/.vimrc") := by
  have h := (symlink_comparison_byte_exact
      [("/h/.vimrc", .symlink "/r/vim/.vimrc/")] "/r" (some "/h")
      "vim/.vimrc" "~/.vimrc" "/r/vim/.vimrc/" rfl).2.1 (by decide)
  rw [h]
  rfl

/-! ## Clean safety (C5) -/

theorem cleanEntry_absent (home : Option String) (fs : Fs) (e : String × String)
    (h : lookupA fs (expandPath home e.2) = none) :
    cleanEntry home fs e = (fs, [.skippedNotFound (expandPath home e.2)]) := by
  simp [cleanEntry, h]

theorem cleanEntry_symlink (home : Option String) (fs : Fs) (e : String × String)
    (ℓ : String) (h : lookupA fs (expandPath home e.2) = some (.symlink ℓ)) :
    cleanEntry home fs e
      = (eraseA fs (expandPath home e.2), [.removed (expandPath home e.2)]) := by
  simp [cleanEntry, removeOp, h]

theorem cleanEntry_nonsymlink (home : Option String) (fs : Fs)
    (e : String × String) (ent : FsEntry) (hns : ∀ ℓ, ent ≠ .symlink ℓ)
    (h : lookupA fs (expandPath home e.2) = some ent) :
    cleanEntry home fs e = (fs, [.skippedNotSymlink (expandPath home e.2)]) := by
  cases ent with
  | file => simp [cleanEntry, h]
  | dir => simp [cleanEntry, h]
  | symlink ℓ => exact absurd rfl (hns ℓ)

theorem cleanEntry_preserves_other (home : Option String) (fs : Fs)
    (e : String × String) (p : String) (hp : p ≠ expandPath home e.2) :
    lookupA (cleanEntry home fs e).1 p = lookupA fs p := by
  cases hT : lookupA fs (expandPath home e.2) with
  | none => rw [cleanEntry_absent home fs e hT]
  | some ent =>
    cases ent with
    | file => rw [cleanEntry_nonsymlink home fs e .file (fun ℓ h => by cases h) hT]
    | dir => rw [cleanEntry_nonsymlink home fs e .dir (fun ℓ h => by cases h) hT]
    | symlink ℓ =>
      rw [cleanEntry_symlink home fs e ℓ hT]
      simp [lookupA_eraseA, hp]

theorem cleanEntry_preserves_nonsymlink (home : Option String) (fs : Fs)
    (e : String × String) (p : String) (ent : FsEntry)
    (hns : ∀ ℓ, ent ≠ .symlink ℓ) (h : lookupA fs p = some ent) :
    lookupA (cleanEntry home fs e).1 p = some ent := by
  by_cases hp : p = expandPath home e.2
  · subst hp
    rw [cleanEntry_nonsymlink home fs e ent hns h]
    exact h
  · rw [cleanEntry_preserves_other home fs e p hp]
    exact h

theorem cleanEntry_preserves_none (home : Option String) (fs : Fs)
    (e : String × String) (p : String) (h : lookupA fs p = none) :
    lookupA (cleanEntry home fs e).1 p = none := by
  by_cases hp : p = expandPath home e.2
  · subst hp
    rw [cleanEntry_absent home fs e h]
    exact h
  · rw [cleanEntry_preserves_other home fs e p hp]
    exact h

theorem cleanCore_preserves_none (home : Option String) :
    ∀ (m : Smap) (fs : Fs) (p : String), lookupA fs p = none →
    lookupA (cleanCore home fs m).1 p = none := by
  intro m
  induction m with
  | nil => intro fs p h; exact h
  | cons e rest ih =>
    intro fs p h
    simp only [cleanCore]
    exact ih _ p (cleanEntry_preserves_none home fs e p h)

theorem cleanCore_preserves_nonsymlink (home : Option String) :
    ∀ (m : Smap) (fs : Fs) (p : String) (ent : FsEntry),
    (∀ ℓ, ent ≠ .symlink ℓ) → lookupA fs p = some ent →
    lookupA (cleanCore home fs m).1 p = some ent := by
  intro m
  induction m with
  | nil => intro fs p ent _ h; exact h
  | cons e rest ih =>
    intro fs p ent hns h
    simp only [cleanCore]
    exact ih _ p ent hns (cleanEntry_preserves_nonsymlink home fs e p ent hns h)

theorem cleanCore_absent_report (home : Option String) :
    ∀ (m : Smap) (fs : Fs) (e : String × String), e ∈ m →
    lookupA fs (expandPath home e.2) = none →
    Report.skippedNotFound (expandPath home e.2) ∈ (cleanCore home fs m).2 := by
  intro m
  induction m with
  | nil => intro fs e he; cases he
  | cons e' rest ih =>
    intro fs e he hT
    simp only [cleanCore, List.mem_append]
    cases List.mem_cons.mp he with
    | inl h =>
      subst h
      left
      rw [cleanEntry_absent home fs e hT]
      simp
    | inr h =>
      right
      exact ih _ e h (cleanEntry_preserves_none home fs e' _ hT)

theorem cleanCore_nonsymlink_report (home : Option String) :
    ∀ (m : Smap) (fs : Fs) (e : String × String) (ent : FsEntry), e ∈ m →
    (∀ ℓ, ent ≠ .symlink ℓ) → lookupA fs (expandPath home e.2) = some ent →
    Report.skippedNotSymlink (expandPath home e.2) ∈ (cleanCore home fs m).2 := by
  intro m
  induction m with
  | nil => intro fs e ent he; cases he
  | cons e' rest ih =>
    intro fs e ent he hns hT
    simp only [cleanCore, List.mem_append]
    cases List.mem_cons.mp he with
    | inl h =>
      subst h
      left
      rw [cleanEntry_nonsymlink home fs e ent hns hT]
      simp
    | inr h =>
      right
      exact ih _ e ent h hns
        (cleanEntry_preserves_nonsymlink home fs e' _ ent hns hT)

theorem cleanCore_symlink_removed (home : Option String) :
    ∀ (m : Smap) (fs : Fs) (e : String × String) (ℓ : String), e ∈ m →
    lookupA fs (expandPath home e.2) = some (.symlink ℓ) →
    lookupA (cleanCore home fs m).1 (expandPath home e.2) = none
      ∧ Report.removed (expandPath home e.2) ∈ (cleanCore home fs m).2 := by
  intro m
  induction m with
  | nil => intro fs e ℓ he; cases he
  | cons e' rest ih =>
    intro fs e ℓ he hT
    simp only [cleanCore, List.mem_append]
    cases List.mem_cons.mp he with
    | inl h =>
      subst h
      rw [cleanEntry_symlink home fs e ℓ hT]
      constructor
      · exact cleanCore_preserves_none home rest _ _ (by simp [lookupA_eraseA])
      · left
        simp
    | inr h =>
      by_cases hTT : expandPath home e'.2 = expandPath home e.2
      · have hT' : lookupA fs (expandPath home e'.2) = some (.symlink ℓ) := by
          rw [hTT]; exact hT
        rw [cleanEntry_symlink home fs e' ℓ hT']
        constructor
        · exact cleanCore_preserves_none home rest _ _ (by simp [lookupA_eraseA, hTT])
        · left
          rw [hTT]
          simp
      · have hpres : lookupA (cleanEntry home fs e').1 (expandPath home e.2)
            = some (.symlink ℓ) := by
          rw [cleanEntry_preserves_other home fs e' _ (fun hc => hTT hc.symm)]
          exact hT
        have := ih _ e ℓ h hpres
        exact ⟨this.1, Or.inr this.2⟩

/-- C5: `Clean` never removes a non-symlink entry (absent and
non-symlink targets are reported skipped), removes any symlink at a
target regardless of where it points, and — after a successful profile
resolution — never returns an error, in particular not for absent
targets. -/
theorem clean_safety (home : Option String) (fs : Fs) (m : Smap) :
    (∀ p ent, (∀ ℓ, ent ≠ FsEntry.symlink ℓ) → lookupA fs p = some ent →
      lookupA (cleanCore home fs m).1 p = some ent)
    ∧ (∀ e ∈ m, lookupA fs (expandPath home e.2) = none →
        Report.skippedNotFound (expandPath home e.2) ∈ (cleanCore home fs m).2)
    ∧ (∀ e ∈ m, ∀ ent, (∀ ℓ, ent ≠ FsEntry.symlink ℓ) →
        lookupA fs (expandPath home e.2) = some ent →
        Report.skippedNotSymlink (expandPath home e.2) ∈ (cleanCore home fs m).2)
    ∧ (∀ e ∈ m, ∀ ℓ, lookupA fs (expandPath home e.2) = some (.symlink ℓ) →
        lookupA (cleanCore home fs m).1 (expandPath home e.2) = none
          ∧ Report.removed (expandPath home e.2) ∈ (cleanCore home fs m).2)
    ∧ (∀ (table : List (String × Smap)) (names : List String) (m' : Smap),
        getProfiles table names = .ok m' →
        (cleanRun home fs table names).2 = .ok (cleanCore home fs m').2) := by
  refine ⟨?_, ?_, ?_, ?_, ?_⟩
  · intro p ent hns h
    exact cleanCore_preserves_nonsymlink home m fs p ent hns h
  · intro e he hT
    exact cleanCore_absent_report home m fs e he hT
  · intro e he ent hns hT
    exact cleanCore_nonsymlink_report home m fs e ent he hns hT
  · intro e he ℓ hT
    exact cleanCore_symlink_removed home m fs e ℓ he hT
  · intro table names m' hok
    unfold cleanRun
    rw [hok]

/-- Witness for C5: a regular file at the target survives `Clean`, and
the run reports it skipped. -/
theorem clean_safety_witness :
    lookupA (cleanCore (some "/h") [("/h/t", .file)] [("s", "/h/t")]).1 "/h/t"
        = some .file
      ∧ Report.skippedNotSymlink "/h/t"
          ∈ (cleanCore (some "/h") [("/h/t", .file)] [("s", "/h/t")]).2 := by
  constructor
  · exact (clean_safety (some "/h") [("/h/t", .file)] [("s", "/h/t")]).1
      "/h/t" .file (fun ℓ h => by cases h) rfl
  · exact (clean_safety (some "/h") [("/h/t", .file)] [("s", "/h/t")]).2.2.1
      ("s", "/h/t") (by simp) .file (fun ℓ h => by cases h) rfl

/-! ## Link idempotence machinery (C6) -/

theorem neBak (x : String) : x ≠ x ++ ".bak" := by
  intro h
  have hlen := congrArg String.length h
  rw [String.length_append] at hlen
  have h4 : (".bak" : String).length = 4 := rfl
  omega

theorem statR_statFuel_eq (fs : Fs) (p : String) :
    statR fs statFuel p
      = (match lookupA fs p with
         | none => StatRes.notExist
         | some (.symlink t) => statR fs 39 t
         | some e => .ok e) := rfl

theorem statR_of_file (fs : Fs) (p : String) (h : lookupA fs p = some .file) :
    statR fs statFuel p = .ok .file := by
  rw [statR_statFuel_eq, h]

theorem statR_of_dir (fs : Fs) (p : String) (h : lookupA fs p = some .dir) :
    statR fs statFuel p = .ok .dir := by
  rw [statR_statFuel_eq, h]

theorem statR_of_none (fs : Fs) (p : String) (h : lookupA fs p = none) :
    statR fs statFuel p = .notExist := by
  rw [statR_statFuel_eq, h]

theorem statR_nonsymlink_ne_notExist (fs : Fs) (p : String)
    (h : lookupA fs p = some .file ∨ lookupA fs p = some .dir) :
    statR fs statFuel p ≠ .notExist := by
  cases h with
  | inl h => rw [statR_of_file fs p h]; intro hc; cases hc
  | inr h => rw [statR_of_dir fs p h]; intro hc; cases hc

theorem mkdirAll_of_none (fs : Fs) (p : String) (h : lookupA fs p = none) :
    mkdirAll fs p = some (insertA fs p .dir) := by
  unfold mkdirAll
  rw [statR_of_none fs p h]

theorem mkdirAll_of_dir (fs : Fs) (p : String) (h : lookupA fs p = some .dir) :
    mkdirAll fs p = some fs := by
  unfold mkdirAll
  rw [statR_of_dir fs p h]

/-- `mkdirAll` on a path that is absent or a directory succeeds, changes
nothing at other paths, and leaves the path absent-or-directory. -/
theorem mkdirAll_none_or_dir (fs : Fs) (p : String)
    (h : lookupA fs p = none ∨ lookupA fs p = some .dir) :
    ∃ fsA, mkdirAll fs p = some fsA
      ∧ (∀ q, q ≠ p → lookupA fsA q = lookupA fs q)
      ∧ (lookupA fsA p = lookupA fs p ∨ (lookupA fs p = none ∧ lookupA fsA p = some .dir)) := by
  cases h with
  | inl h =>
    refine ⟨insertA fs p .dir, mkdirAll_of_none fs p h, ?_, ?_⟩
    · intro q hq
      rw [lookupA_insertA, if_neg hq]
    · right
      refine ⟨h, ?_⟩
      rw [lookupA_insertA, if_pos rfl]
  | inr h =>
    refine ⟨fs, mkdirAll_of_dir fs p h, fun q _ => rfl, Or.inl rfl⟩

theorem symlinkOp_of_none (fs : Fs) (src p : String)
    (h : lookupA fs p = none) :
    symlinkOp fs src p = some (insertA fs p (.symlink src)) := by
  unfold symlinkOp
  rw [h]

theorem removeOp_of_some (fs : Fs) (p : String) (ent : FsEntry)
    (h : lookupA fs p = some ent) :
    removeOp fs p = some (eraseA fs p) := by
  unfold removeOp
  rw [h]

/-- `BackupFile` on an existing entry succeeds; afterwards the path is
free, the `.bak` path holds the displaced entry, and nothing else moved. -/
theorem backupFile_spec (fs : Fs) (p : String) (ent : FsEntry)
    (hT : lookupA fs p = some ent) :
    ∃ fsr, backupFile fs p = some fsr
      ∧ lookupA fsr p = none
      ∧ lookupA fsr (p ++ ".bak") = some ent
      ∧ ∀ q, q ≠ p → q ≠ p ++ ".bak" → lookupA fsr q = lookupA fs q := by
  have hpb : p ≠ p ++ ".bak" := neBak p
  cases hst : statR fs statFuel (p ++ ".bak") with
  | ok e0 =>
    have h1 : lookupA (removeAllOp fs (p ++ ".bak")) p = some ent := by
      unfold removeAllOp
      rw [lookupA_eraseA, if_neg hpb]
      exact hT
    have hbf : backupFile fs p
        = some (insertA (eraseA (removeAllOp fs (p ++ ".bak")) p)
            (p ++ ".bak") ent) := by
      simp only [backupFile, hst, renameOp, h1]
    refine ⟨_, hbf, ?_, ?_, ?_⟩
    · rw [lookupA_insertA, if_neg (fun hc : p = p ++ ".bak" => hpb hc),
        lookupA_eraseA, if_pos rfl]
    · rw [lookupA_insertA, if_pos rfl]
    · intro q hq hqb
      rw [lookupA_insertA, if_neg hqb, lookupA_eraseA, if_neg hq]
      unfold removeAllOp
      rw [lookupA_eraseA, if_neg hqb]
  | notExist =>
    have hbf : backupFile fs p
        = some (insertA (eraseA fs p) (p ++ ".bak") ent) := by
      simp only [backupFile, hst, renameOp, hT]
    refine ⟨_, hbf, ?_, ?_, ?_⟩
    · rw [lookupA_insertA, if_neg (fun hc : p = p ++ ".bak" => hpb hc),
        lookupA_eraseA, if_pos rfl]
    · rw [lookupA_insertA, if_pos rfl]
    · intro q hq hqb
      rw [lookupA_insertA, if_neg hqb, lookupA_eraseA, if_neg hq]
  | err =>
    have hbf : backupFile fs p
        = some (insertA (eraseA fs p) (p ++ ".bak") ent) := by
      simp only [backupFile, hst, renameOp, hT]
    refine ⟨_, hbf, ?_, ?_, ?_⟩
    · rw [lookupA_insertA, if_neg (fun hc : p = p ++ ".bak" => hpb hc),
        lookupA_eraseA, if_pos rfl]
    · rw [lookupA_insertA, if_pos rfl]
    · intro q hq hqb
      rw [lookupA_insertA, if_neg hqb, lookupA_eraseA, if_neg hq]

theorem linkEntry_absent_eq (root : String) (home : Option String) (fs : Fs)
    (e : String × String) (entS : FsEntry) (fsA fsB : Fs)
    (hS : statR fs statFuel (goJoin root e.1) = .ok entS)
    (hT : lookupA fs (expandPath home e.2) = none)
    (hmk : mkdirAll fs (dirOf (expandPath home e.2)) = some fsA)
    (hsym : symlinkOp fsA (goJoin root e.1) (expandPath home e.2) = some fsB) :
    linkEntry root home false fs e
      = (fsB, [.created (expandPath home e.2) (goJoin root e.1)]) := by
  simp [linkEntry, createStep, hS, hT, hmk, hsym]

theorem linkEntry_correct_eq (root : String) (home : Option String) (fs : Fs)
    (e : String × String) (entS : FsEntry)
    (hS : statR fs statFuel (goJoin root e.1) = .ok entS)
    (hT : lookupA fs (expandPath home e.2)
      = some (.symlink (goJoin root e.1))) :
    linkEntry root home false fs e
      = (fs, [.skippedCorrect (expandPath home e.2) (goJoin root e.1)]) := by
  simp [linkEntry, readlinkOp, hS, hT]

theorem linkEntry_wrong_eq (root : String) (home : Option String) (fs : Fs)
    (e : String × String) (entS : FsEntry) (ℓ : String) (fsA fsB : Fs)
    (hS : statR fs statFuel (goJoin root e.1) = .ok entS)
    (hT : lookupA fs (expandPath home e.2) = some (.symlink ℓ))
    (hne : ℓ ≠ goJoin root e.1)
    (hmk : mkdirAll (eraseA fs (expandPath home e.2))
      (dirOf (expandPath home e.2)) = some fsA)
    (hsym : symlinkOp fsA (goJoin root e.1) (expandPath home e.2) = some fsB) :
    linkEntry root home false fs e
      = (fsB, [.overriding (expandPath home e.2) ℓ,
               .created (expandPath home e.2) (goJoin root e.1)]) := by
  have hrem : removeOp fs (expandPath home e.2)
      = some (eraseA fs (expandPath home e.2)) :=
    removeOp_of_some fs _ _ hT
  simp [linkEntry, createStep, readlinkOp, hS, hT, hne, hrem, hmk, hsym]

theorem linkEntry_wrongtype_eq (root : String) (home : Option String)
    (fs : Fs) (e : String × String) (entS entT : FsEntry) (fsr fsA fsB : Fs)
    (hS : statR fs statFuel (goJoin root e.1) = .ok entS)
    (hT : lookupA fs (expandPath home e.2) = some entT)
    (hnt : ∀ ℓ, entT ≠ .symlink ℓ)
    (hbak : backupFile fs (expandPath home e.2) = some fsr)
    (hmk : mkdirAll fsr (dirOf (expandPath home e.2)) = some fsA)
    (hsym : symlinkOp fsA (goJoin root e.1) (expandPath home e.2) = some fsB) :
    linkEntry root home false fs e
      = (fsB, [.backedUp (expandPath home e.2),
               .created (expandPath home e.2) (goJoin root e.1)]) := by
  cases entT with
  | symlink ℓ => exact absurd rfl (hnt ℓ)
  | file => simp [linkEntry, createStep, hS, hT, hbak, hmk, hsym]
  | dir => simp [linkEntry, createStep, hS, hT, hbak, hmk, hsym]

/-- One non-dry `Link` iteration, when the source exists as a
non-symlink and the target's parent path is free or a directory and
collides with neither the target nor its backup path, ends with a
correct symlink at the target and touches only the target, its backup
path and its parent path. -/
theorem linkEntry_establishes (root : String) (home : Option String)
    (fs : Fs) (e : String × String)
    (hsrc : lookupA fs (goJoin root e.1) = some .file
      ∨ lookupA fs (goJoin root e.1) = some .dir)
    (hdir : lookupA fs (dirOf (expandPath home e.2)) = none
      ∨ lookupA fs (dirOf (expandPath home e.2)) = some .dir)
    (hDT : dirOf (expandPath home e.2) ≠ expandPath home e.2)
    (hDB : dirOf (expandPath home e.2) ≠ expandPath home e.2 ++ ".bak") :
    lookupA (linkEntry root home false fs e).1 (expandPath home e.2)
        = some (.symlink (goJoin root e.1))
    ∧ (∀ p, p ≠ expandPath home e.2 → p ≠ expandPath home e.2 ++ ".bak"
        → p ≠ dirOf (expandPath home e.2)
        → lookupA (linkEntry root home false fs e).1 p = lookupA fs p)
    ∧ (lookupA (linkEntry root home false fs e).1
          (dirOf (expandPath home e.2))
          = lookupA fs (dirOf (expandPath home e.2))
        ∨ (lookupA fs (dirOf (expandPath home e.2)) = none
            ∧ lookupA (linkEntry root home false fs e).1
                (dirOf (expandPath home e.2)) = some .dir)) := by
  obtain ⟨entS, hS⟩ : ∃ entS, statR fs statFuel (goJoin root e.1) = .ok entS := by
    cases hsrc with
    | inl h => exact ⟨.file, statR_of_file fs _ h⟩
    | inr h => exact ⟨.dir, statR_of_dir fs _ h⟩
  cases hT : lookupA fs (expandPath home e.2) with
  | none =>
    obtain ⟨fsA, hmk, hmkO, hmkD⟩ :=
      mkdirAll_none_or_dir fs (dirOf (expandPath home e.2)) hdir
    have hTA : lookupA fsA (expandPath home e.2) = none := by
      rw [hmkO _ (Ne.symm hDT)]
      exact hT
    have hsym := symlinkOp_of_none fsA (goJoin root e.1) (expandPath home e.2) hTA
    have hle := linkEntry_absent_eq root home fs e entS fsA _ hS hT hmk hsym
    simp only [hle]
    refine ⟨?_, ?_, ?_⟩
    · rw [lookupA_insertA, if_pos rfl]
    · intro p hp hpb hpd
      rw [lookupA_insertA, if_neg hp, hmkO p hpd]
    · rw [lookupA_insertA, if_neg hDT]
      exact hmkD
  | some ent =>
    cases ent with
    | symlink ℓ =>
      by_cases hEq : ℓ = goJoin root e.1
      · have hT' : lookupA fs (expandPath home e.2)
            = some (.symlink (goJoin root e.1)) := by
          rw [hT, hEq]
        have hle := linkEntry_correct_eq root home fs e entS hS hT'
        simp only [hle]
        exact ⟨hT', fun p _ _ _ => trivial, Or.inl trivial⟩
      · have hTA0 : lookupA (eraseA fs (expandPath home e.2))
            (expandPath home e.2) = none := by
          rw [lookupA_eraseA, if_pos rfl]
        have hdir' : lookupA (eraseA fs (expandPath home e.2))
            (dirOf (expandPath home e.2))
            = lookupA fs (dirOf (expandPath home e.2)) := by
          rw [lookupA_eraseA, if_neg hDT]
        obtain ⟨fsA, hmk, hmkO, hmkD⟩ :=
          mkdirAll_none_or_dir (eraseA fs (expandPath home e.2))
            (dirOf (expandPath home e.2)) (by rw [hdir']; exact hdir)
        have hTA : lookupA fsA (expandPath home e.2) = none := by
          rw [hmkO _ (Ne.symm hDT)]
          exact hTA0
        have hsym := symlinkOp_of_none fsA (goJoin root e.1)
          (expandPath home e.2) hTA
        have hle := linkEntry_wrong_eq root home fs e entS ℓ fsA _ hS hT hEq hmk hsym
        simp only [hle]
        refine ⟨?_, ?_, ?_⟩
        · rw [lookupA_insertA, if_pos rfl]
        · intro p hp hpb hpd
          rw [lookupA_insertA, if_neg hp, hmkO p hpd, lookupA_eraseA, if_neg hp]
        · rw [lookupA_insertA, if_neg hDT]
          cases hmkD with
          | inl h =>
            left
            rw [h, hdir']
          | inr h =>
            right
            refine ⟨?_, h.2⟩
            rw [← hdir']
            exact h.1
    | file =>
      obtain ⟨fsr, hbak, hbp, hbb, hbo⟩ :=
        backupFile_spec fs (expandPath home e.2) .file hT
      have hdir' : lookupA fsr (dirOf (expandPath home e.2))
          = lookupA fs (dirOf (expandPath home e.2)) := hbo _ hDT hDB
      obtain ⟨fsA, hmk, hmkO, hmkD⟩ :=
        mkdirAll_none_or_dir fsr (dirOf (expandPath home e.2))
          (by rw [hdir']; exact hdir)
      have hTA : lookupA fsA (expandPath home e.2) = none := by
        rw [hmkO _ (Ne.symm hDT)]
        exact hbp
      have hsym := symlinkOp_of_none fsA (goJoin root e.1)
        (expandPath home e.2) hTA
      have hle := linkEntry_wrongtype_eq root home fs e entS .file fsr fsA _
        hS hT (fun ℓ h => by cases h) hbak hmk hsym
      simp only [hle]
      refine ⟨?_, ?_, ?_⟩
      · rw [lookupA_insertA, if_pos rfl]
      · intro p hp hpb hpd
        rw [lookupA_insertA, if_neg hp, hmkO p hpd, hbo p hp hpb]
      · rw [lookupA_insertA, if_neg hDT]
        cases hmkD with
        | inl h =>
          left
          rw [h, hdir']
        | inr h =>
          right
          refine ⟨?_, h.2⟩
          rw [← hdir']
          exact h.1
    | dir =>
      obtain ⟨fsr, hbak, hbp, hbb, hbo⟩ :=
        backupFile_spec fs (expandPath home e.2) .dir hT
      have hdir' : lookupA fsr (dirOf (expandPath home e.2))
          = lookupA fs (dirOf (expandPath home e.2)) := hbo _ hDT hDB
      obtain ⟨fsA, hmk, hmkO, hmkD⟩ :=
        mkdirAll_none_or_dir fsr (dirOf (expandPath home e.2))
          (by rw [hdir']; exact hdir)
      have hTA : lookupA fsA (expandPath home e.2) = none := by
        rw [hmkO _ (Ne.symm hDT)]
        exact hbp
      have hsym := symlinkOp_of_none fsA (goJoin root e.1)
        (expandPath home e.2) hTA
      have hle := linkEntry_wrongtype_eq root home fs e entS .dir fsr fsA _
        hS hT (fun ℓ h => by cases h) hbak hmk hsym
      simp only [hle]
      refine ⟨?_, ?_, ?_⟩
      · rw [lookupA_insertA, if_pos rfl]
      · intro p hp hpb hpd
        rw [lookupA_insertA, if_neg hp, hmkO p hpd, hbo p hp hpb]
      · rw [lookupA_insertA, if_neg hDT]
        cases hmkD with
        | inl h =>
          left
          rw [h, hdir']
        | inr h =>
          right
          refine ⟨?_, h.2⟩
          rw [← hdir']
          exact h.1

/-- The expanded target paths of a flattened mapping. -/
def targetsOf (home : Option String) (m : Smap) : List String :=
  m.map (fun e => expandPath home e.2)

/-- The backup paths of a flattened mapping's expanded targets. -/
def baksOf (home : Option String) (m : Smap) : List String :=
  m.map (fun e => expandPath home e.2 ++ ".bak")

theorem targetsOf_cons (home : Option String) (e : String × String) (m : Smap) :
    targetsOf home (e :: m) = expandPath home e.2 :: targetsOf home m := rfl

theorem baksOf_cons (home : Option String) (e : String × String) (m : Smap) :
    baksOf home (e :: m) = (expandPath home e.2 ++ ".bak") :: baksOf home m := rfl

/-- A non-dry `Link` run over a mapping with pairwise-distinct expanded
targets, no target/backup collisions, existing non-symlink sources and
free-or-directory parent paths (all outside the mutated target/backup
sets) ends with a correct symlink at every target, and preserves every
path outside the target and backup sets that held an entry, as well as
the absent-or-directory status of such paths. -/
theorem linkCore_establishes (root : String) (home : Option String) :
    ∀ (m : Smap) (fs : Fs),
    (targetsOf home m).Nodup →
    (∀ e ∈ m, lookupA fs (goJoin root e.1) = some .file
      ∨ lookupA fs (goJoin root e.1) = some .dir) →
    (∀ e ∈ m, goJoin root e.1 ∉ targetsOf home m
      ∧ goJoin root e.1 ∉ baksOf home m) →
    (∀ e ∈ m, lookupA fs (dirOf (expandPath home e.2)) = none
      ∨ lookupA fs (dirOf (expandPath home e.2)) = some .dir) →
    (∀ e ∈ m, dirOf (expandPath home e.2) ∉ targetsOf home m
      ∧ dirOf (expandPath home e.2) ∉ baksOf home m) →
    (∀ e ∈ m, expandPath home e.2 ∉ baksOf home m) →
    (∀ e ∈ m, lookupA (linkCore root home false fs m).1 (expandPath home e.2)
        = some (.symlink (goJoin root e.1)))
    ∧ (∀ p ent, p ∉ targetsOf home m → p ∉ baksOf home m →
        lookupA fs p = some ent →
        lookupA (linkCore root home false fs m).1 p = some ent)
    ∧ (∀ p, p ∉ targetsOf home m → p ∉ baksOf home m →
        (lookupA fs p = none ∨ lookupA fs p = some .dir) →
        (lookupA (linkCore root home false fs m).1 p = none
          ∨ lookupA (linkCore root home false fs m).1 p = some .dir)) := by
  intro m
  induction m with
  | nil =>
    intro fs _ _ _ _ _ _
    refine ⟨fun e he => absurd he (List.not_mem_nil e), ?_, ?_⟩
    · intro p ent _ _ h
      exact h
    · intro p _ _ h
      exact h
  | cons e rest ih =>
    intro fs hnd hsrc hsep hdir hdsep htb
    have heM : e ∈ e :: rest := List.mem_cons_self e rest
    have hTmem : expandPath home e.2 ∈ targetsOf home (e :: rest) := by
      rw [targetsOf_cons]
      exact List.mem_cons_self _ _
    have hBmem : expandPath home e.2 ++ ".bak" ∈ baksOf home (e :: rest) := by
      rw [baksOf_cons]
      exact List.mem_cons_self _ _
    have hDT : dirOf (expandPath home e.2) ≠ expandPath home e.2 := by
      intro hc
      exact (hdsep e heM).1 (by rw [hc]; exact hTmem)
    have hDB : dirOf (expandPath home e.2) ≠ expandPath home e.2 ++ ".bak" := by
      intro hc
      exact (hdsep e heM).2 (by rw [hc]; exact hBmem)
    obtain ⟨s1, s2, s3⟩ := linkEntry_establishes root home fs e (hsrc e heM)
      (hdir e heM) hDT hDB
    -- per-entry preservation corollaries
    have step_some : ∀ p ent, p ≠ expandPath home e.2
        → p ≠ expandPath home e.2 ++ ".bak" → lookupA fs p = some ent →
        lookupA (linkEntry root home false fs e).1 p = some ent := by
      intro p ent hp hpb h
      by_cases hpd : p = dirOf (expandPath home e.2)
      · subst hpd
        cases s3 with
        | inl hsame => rw [hsame]; exact h
        | inr hdnew => rw [hdnew.1] at h; cases h
      · rw [s2 p hp hpb hpd]
        exact h
    have step_nd : ∀ p, p ≠ expandPath home e.2
        → p ≠ expandPath home e.2 ++ ".bak" →
        (lookupA fs p = none ∨ lookupA fs p = some .dir) →
        (lookupA (linkEntry root home false fs e).1 p = none
          ∨ lookupA (linkEntry root home false fs e).1 p = some .dir) := by
      intro p hp hpb h
      by_cases hpd : p = dirOf (expandPath home e.2)
      · subst hpd
        cases s3 with
        | inl hsame => rw [hsame]; exact h
        | inr hdnew => right; exact hdnew.2
      · rw [s2 p hp hpb hpd]
        exact h
    -- hypotheses for the tail at the post-entry state
    have hndT : (targetsOf home rest).Nodup := by
      rw [targetsOf_cons] at hnd
      exact (List.nodup_cons.mp hnd).2
    have hTnotT : expandPath home e.2 ∉ targetsOf home rest := by
      rw [targetsOf_cons] at hnd
      exact (List.nodup_cons.mp hnd).1
    have hsubT : ∀ x, x ∈ targetsOf home rest → x ∈ targetsOf home (e :: rest) := by
      intro x hx
      rw [targetsOf_cons]
      exact List.mem_cons_of_mem _ hx
    have hsubB : ∀ x, x ∈ baksOf home rest → x ∈ baksOf home (e :: rest) := by
      intro x hx
      rw [baksOf_cons]
      exact List.mem_cons_of_mem _ hx
    have hTneq : ∀ e' ∈ rest, goJoin root e'.1 ≠ expandPath home e.2 := by
      intro e' he' hc
      exact (hsep e' (List.mem_cons_of_mem e he')).1 (by rw [hc]; exact hTmem)
    have hBneq : ∀ e' ∈ rest, goJoin root e'.1 ≠ expandPath home e.2 ++ ".bak" := by
      intro e' he' hc
      exact (hsep e' (List.mem_cons_of_mem e he')).2 (by rw [hc]; exact hBmem)
    obtain ⟨kc1, kc2, kc3⟩ := ih (linkEntry root home false fs e).1 hndT
      (fun e' he' => by
        cases hsrc e' (List.mem_cons_of_mem e he') with
        | inl h =>
          exact Or.inl (step_some _ _ (hTneq e' he') (hBneq e' he') h)
        | inr h =>
          exact Or.inr (step_some _ _ (hTneq e' he') (hBneq e' he') h))
      (fun e' he' =>
        ⟨fun hc => (hsep e' (List.mem_cons_of_mem e he')).1 (hsubT _ hc),
         fun hc => (hsep e' (List.mem_cons_of_mem e he')).2 (hsubB _ hc)⟩)
      (fun e' he' => by
        refine step_nd _ ?_ ?_ (hdir e' (List.mem_cons_of_mem e he'))
        · intro hc
          exact (hdsep e' (List.mem_cons_of_mem e he')).1 (by rw [hc]; exact hTmem)
        · intro hc
          exact (hdsep e' (List.mem_cons_of_mem e he')).2 (by rw [hc]; exact hBmem))
      (fun e' he' =>
        ⟨fun hc => (hdsep e' (List.mem_cons_of_mem e he')).1 (hsubT _ hc),
         fun hc => (hdsep e' (List.mem_cons_of_mem e he')).2 (hsubB _ hc)⟩)
      (fun e' he' hc => htb e' (List.mem_cons_of_mem e he') (hsubB _ hc))
    have hfstc : (linkCore root home false fs (e :: rest)).1
        = (linkCore root home false (linkEntry root home false fs e).1 rest).1 := by
      simp only [linkCore]
    refine ⟨?_, ?_, ?_⟩
    · intro e' he'
      rw [hfstc]
      cases List.mem_cons.mp he' with
      | inl h =>
        subst h
        refine kc2 _ _ hTnotT ?_ s1
        intro hc
        exact htb e' heM (hsubB _ hc)
      | inr h => exact kc1 e' h
    · intro p ent hpT hpB hp
      rw [hfstc]
      refine kc2 p ent (fun hc => hpT (hsubT _ hc)) (fun hc => hpB (hsubB _ hc)) ?_
      refine step_some p ent (fun hc => hpT (by rw [hc]; exact hTmem)) (fun hc => hpB (by rw [hc]; exact hBmem)) hp
    · intro p hpT hpB hp
      rw [hfstc]
      refine kc3 p (fun hc => hpT (hsubT _ hc)) (fun hc => hpB (hsubB _ hc)) ?_
      refine step_nd p (fun hc => hpT (by rw [hc]; exact hTmem)) (fun hc => hpB (by rw [hc]; exact hBmem)) hp

/-- A non-dry `Link` run on a state where every target is already the
correct symlink and every source exists mutates nothing and reports
every entry as already correct. -/
theorem linkCore_all_correct (root : String) (home : Option String) :
    ∀ (m : Smap) (fs : Fs),
    (∀ e ∈ m, lookupA fs (expandPath home e.2)
        = some (.symlink (goJoin root e.1))
      ∧ (lookupA fs (goJoin root e.1) = some .file
        ∨ lookupA fs (goJoin root e.1) = some .dir)) →
    linkCore root home false fs m
      = (fs, m.map (fun e =>
          Report.skippedCorrect (expandPath home e.2) (goJoin root e.1))) := by
  intro m
  induction m with
  | nil => intro fs _; rfl
  | cons e rest ih =>
    intro fs h
    have he := h e (List.mem_cons_self e rest)
    obtain ⟨entS, hS⟩ : ∃ entS, statR fs statFuel (goJoin root e.1) = .ok entS := by
      cases he.2 with
      | inl hf => exact ⟨.file, statR_of_file fs _ hf⟩
      | inr hd => exact ⟨.dir, statR_of_dir fs _ hd⟩
    have hle := linkEntry_correct_eq root home fs e entS hS he.1
    have hrest := ih fs (fun e' he' => h e' (List.mem_cons_of_mem e he'))
    simp only [linkCore, hle, hrest, List.map_cons]
    rfl

/-- C6 (amended): for a flattened mapping whose expanded targets are
pairwise distinct and disjoint from the backup paths, whose sources
exist as non-symlinks outside the target/backup sets, and whose
targets' parent paths are absent-or-directories outside those sets,
running `Link` twice (non-dry-run) mutates nothing on the second run
and reports every entry as already correct. -/
theorem link_idempotent (root : String) (home : Option String)
    (m : Smap) (fs : Fs)
    (hnd : (targetsOf home m).Nodup)
    (htb : ∀ e ∈ m, expandPath home e.2 ∉ baksOf home m)
    (hsrc : ∀ e ∈ m,
      (lookupA fs (goJoin root e.1) = some .file
        ∨ lookupA fs (goJoin root e.1) = some .dir)
      ∧ goJoin root e.1 ∉ targetsOf home m
      ∧ goJoin root e.1 ∉ baksOf home m)
    (hdir : ∀ e ∈ m,
      (lookupA fs (dirOf (expandPath home e.2)) = none
        ∨ lookupA fs (dirOf (expandPath home e.2)) = some .dir)
      ∧ dirOf (expandPath home e.2) ∉ targetsOf home m
      ∧ dirOf (expandPath home e.2) ∉ baksOf home m) :
    linkCore root home false ((linkCore root home false fs m).1) m
      = ((linkCore root home false fs m).1,
         m.map (fun e =>
           Report.skippedCorrect (expandPath home e.2) (goJoin root e.1))) := by
  obtain ⟨c1, c2, c3⟩ := linkCore_establishes root home m fs hnd
    (fun e he => (hsrc e he).1)
    (fun e he => ⟨(hsrc e he).2.1, (hsrc e he).2.2⟩)
    (fun e he => (hdir e he).1)
    (fun e he => ⟨(hdir e he).2.1, (hdir e he).2.2⟩)
    htb
  apply linkCore_all_correct root home m
  intro e he
  refine ⟨c1 e he, ?_⟩
  cases (hsrc e he).1 with
  | inl h =>
    exact Or.inl (c2 _ _ (hsrc e he).2.1 (hsrc e he).2.2 h)
  | inr h =>
    exact Or.inr (c2 _ _ (hsrc e he).2.1 (hsrc e he).2.2 h)

/-- C6 counterexample: with a missing source, the second `Link` run
reports a warning for the entry instead of the already-correct report. -/
theorem link_idempotent_cex :
    (linkCore "/r" (some "/h") false
        ((linkCore "/r" (some "/h") false [] [("s", "t")]).1) [("s", "t")]).2
      = [Report.warnMissingSource "/r/s"]
    ∧ (linkCore "/r" (some "/h") false
        ((linkCore "/r" (some "/h") false [] [("s", "t")]).1) [("s", "t")]).2
      ≠ [("s", "t")].map (fun e =>
          Report.skippedCorrect (expandPath (some "/h") e.2)
            (goJoin "/r" e.1)) := by
  refine ⟨rfl, ?_⟩
  intro hc
  rw [show (linkCore "/r" (some "/h") false
      ((linkCore "/r" (some "/h") false [] [("s", "t")]).1) [("s", "t")]).2
      = [Report.warnMissingSource "/r/s"] from rfl] at hc
  rw [show [("s", "t")].map (fun e =>
      Report.skippedCorrect (expandPath (some "/h") e.2) (goJoin "/r" e.1))
      = [Report.skippedCorrect "t" "/r/s"] from rfl] at hc
  cases hc

/-- Witness for C6 (amended) at a one-entry mapping with an existing
source file: the second run keeps the state and reports the entry as
already correct. -/
theorem link_idempotent_witness :
    linkCore "/r" (some "/h") false
        ((linkCore "/r" (some "/h") false [("/r/vim", .file)]
          [("vim", "~/.vimrc")]).1) [("vim", "~/.vimrc")]
      = ((linkCore "/r" (some "/h") false [("/r/vim", .file)]
          [("vim", "~/.vimrc")]).1,
         [Report.skippedCorrect "/h/.vimrc" "/r/vim"]) := by
  have h := link_idempotent "/r" (some "/h") [("vim", "~/.vimrc")]
    [("/r/vim", .file)]
    (by decide)
    (by decide)
    (by intro e he; rw [List.mem_singleton] at he; subst he; exact ⟨Or.inl rfl, by decide, by decide⟩)
    (by intro e he; rw [List.mem_singleton] at he; subst he; exact ⟨Or.inl rfl, by decide, by decide⟩)
  rw [h]
  rfl

/-! ## Order (in)dependence of the merge (C9) -/

/-- Extensional equality of association maps: equal as Go maps. -/
def ExtEq {α : Type} (m₁ m₂ : List (String × α)) : Prop :=
  ∀ k, lookupA m₁ k = lookupA m₂ k

/-- Extensional equality of merge states. -/
def StEq (s₁ s₂ : MergeState) : Prop :=
  ExtEq s₁.result s₂.result ∧ ExtEq s₁.tts s₂.tts

theorem StEq.refl (st : MergeState) : StEq st st :=
  ⟨fun _ => rfl, fun _ => rfl⟩

theorem StEq.trans {a b c : MergeState} (h₁ : StEq a b) (h₂ : StEq b c) :
    StEq a c :=
  ⟨fun k => (h₁.1 k).trans (h₂.1 k), fun k => (h₁.2 k).trans (h₂.2 k)⟩

/-- An entry occurring in some profile of the table. -/
def InTable (table : List (String × Smap)) (e : String × String) : Prop :=
  ∃ n p, lookupA table n = some p ∧ e ∈ p

/-- Merge-loop invariant for order-independence: every binding of the
reverse index and of the result comes from a table entry. -/
def MergeInv (table : List (String × Smap)) (st : MergeState) : Prop :=
  (∀ t s, lookupA st.tts t = some s → InTable table (s, t))
  ∧ (∀ s t, lookupA st.result s = some t → InTable table (s, t))

theorem mergeInv_empty (table : List (String × Smap)) :
    MergeInv table { result := [], tts := [] } := by
  constructor
  · intro t s h
    simp [lookupA] at h
  · intro s t h
    simp [lookupA] at h

/-- Pointwise reading of one override step on the result map. -/
theorem applyEntry_result_lookup (st : MergeState) (e : String × String)
    (k : String) :
    lookupA (applyEntry st e).result k =
      if k = e.1 then some e.2
      else if lookupA st.tts e.2 = some k then none
      else lookupA st.result k := by
  unfold applyEntry
  cases h : lookupA st.tts e.2 with
  | some old =>
    simp only [lookupA_insertA, lookupA_eraseA]
    by_cases hk : k = e.1
    · simp [hk]
    · simp only [if_neg hk]
      by_cases hko : k = old
      · subst hko
        simp
      · rw [if_neg hko, if_neg (fun hc : some old = some k =>
          hko (Option.some.inj hc).symm)]
  | none =>
    simp only [lookupA_insertA]
    by_cases hk : k = e.1
    · simp [hk]
    · simp only [if_neg hk]
      rw [if_neg (fun hc : (none : Option String) = some k => by cases hc)]

/-- Pointwise reading of one override step on the reverse index. -/
theorem applyEntry_tts_lookup (st : MergeState) (e : String × String)
    (k : String) :
    lookupA (applyEntry st e).tts k =
      if k = e.2 then some e.1 else lookupA st.tts k := by
  unfold applyEntry
  cases lookupA st.tts e.2 <;> simp [lookupA_insertA]

theorem applyEntry_congr {st st' : MergeState} (h : StEq st st')
    (e : String × String) : StEq (applyEntry st e) (applyEntry st' e) := by
  constructor
  · intro k
    rw [applyEntry_result_lookup, applyEntry_result_lookup, h.1 k, h.2 e.2]
  · intro k
    rw [applyEntry_tts_lookup, applyEntry_tts_lookup, h.2 k]

theorem mergeInv_applyEntry {table : List (String × Smap)}
    {st : MergeState} (hinv : MergeInv table st) {e : String × String}
    (he : InTable table e) : MergeInv table (applyEntry st e) := by
  constructor
  · intro t s h
    rw [applyEntry_tts_lookup] at h
    by_cases ht : t = e.2
    · rw [if_pos ht] at h
      cases h
      subst ht
      exact Prod.mk.eta ▸ he
    · rw [if_neg ht] at h
      exact hinv.1 t s h
  · intro s t h
    rw [applyEntry_result_lookup] at h
    by_cases hs : s = e.1
    · rw [if_pos hs] at h
      cases h
      subst hs
      exact Prod.mk.eta ▸ he
    · rw [if_neg hs] at h
      by_cases htt : lookupA st.tts e.2 = some s
      · rw [if_pos htt] at h
        cases h
      · rw [if_neg htt] at h
        exact hinv.2 s t h

theorem mergeInv_ext {table : List (String × Smap)} {st st' : MergeState}
    (h : StEq st st') (hinv : MergeInv table st) : MergeInv table st' := by
  constructor
  · intro t s hl
    apply hinv.1 t s
    rw [h.2 t]
    exact hl
  · intro s t hl
    apply hinv.2 s t
    rw [h.1 s]
    exact hl

/-- Under the invariant and a globally functional source→target
relation, two override steps with distinct sources and distinct targets
commute extensionally. -/
theorem applyEntry_swap (table : List (String × Smap))
    (hFun : ∀ s u v, InTable table (s, u) → InTable table (s, v) → u = v)
    {st : MergeState} (hinv : MergeInv table st)
    (e₁ e₂ : String × String) (h₁ : InTable table e₁) (h₂ : InTable table e₂)
    (hs : e₁.1 ≠ e₂.1) (ht : e₁.2 ≠ e₂.2) :
    StEq (applyEntry (applyEntry st e₁) e₂)
      (applyEntry (applyEntry st e₂) e₁) := by
  have hbad₁ : lookupA st.tts e₂.2 ≠ some e₁.1 := fun hc =>
    ht (hFun e₁.1 e₂.2 e₁.2 (hinv.1 _ _ hc) (Prod.mk.eta ▸ h₁)).symm
  have hbad₂ : lookupA st.tts e₁.2 ≠ some e₂.1 := fun hc =>
    ht (hFun e₂.1 e₁.2 e₂.2 (hinv.1 _ _ hc) (Prod.mk.eta ▸ h₂))
  constructor
  · intro k
    rw [applyEntry_result_lookup, applyEntry_result_lookup,
      applyEntry_result_lookup, applyEntry_result_lookup,
      applyEntry_tts_lookup, applyEntry_tts_lookup,
      if_neg (Ne.symm ht), if_neg ht]
    by_cases hk₁ : k = e₁.1 <;> by_cases hk₂ : k = e₂.1
    · exact absurd (hk₁.symm.trans hk₂) hs
    · subst hk₁
      rw [if_neg hk₂, if_neg hbad₁, if_pos rfl, if_pos rfl]
    · subst hk₂
      rw [if_pos rfl, if_neg hk₁, if_neg hbad₂, if_pos rfl]
    · by_cases hb₁ : lookupA st.tts e₁.2 = some k <;>
        by_cases hb₂ : lookupA st.tts e₂.2 = some k <;>
        simp [hk₁, hk₂, hb₁, hb₂]
  · intro k
    rw [applyEntry_tts_lookup, applyEntry_tts_lookup, applyEntry_tts_lookup,
      applyEntry_tts_lookup]
    by_cases hk₁ : k = e₁.2 <;> by_cases hk₂ : k = e₂.2
    · exact absurd (hk₁.symm.trans hk₂) ht
    · rw [if_neg hk₂, if_pos hk₁, if_pos hk₁]
    · rw [if_pos hk₂, if_neg hk₁, if_pos hk₂]
    · rw [if_neg hk₂, if_neg hk₁, if_neg hk₁, if_neg hk₂]

theorem foldl_applyEntry_congr {st st' : MergeState} (h : StEq st st') :
    ∀ l : Smap, StEq (l.foldl applyEntry st) (l.foldl applyEntry st') := by
  intro l
  induction l generalizing st st' with
  | nil => exact h
  | cons e rest ih =>
    simp only [List.foldl_cons]
    exact ih (applyEntry_congr h e)

theorem mergeInv_foldl {table : List (String × Smap)} :
    ∀ (l : Smap) (st : MergeState), MergeInv table st →
    (∀ e ∈ l, InTable table e) → MergeInv table (l.foldl applyEntry st) := by
  intro l
  induction l with
  | nil => intro st h _; exact h
  | cons e rest ih =>
    intro st h hm
    simp only [List.foldl_cons]
    exact ih (applyEntry st e)
      (mergeInv_applyEntry h (hm e (List.mem_cons_self e rest)))
      (fun e' he' => hm e' (List.mem_cons_of_mem e he'))

/-- Under per-profile distinct sources and targets and a globally
functional source→target relation, the override fold is invariant
under permuting the enumeration order. -/
theorem foldl_applyEntry_perm (table : List (String × Smap))
    (hFun : ∀ s u v, InTable table (s, u) → InTable table (s, v) → u = v) :
    ∀ {l₁ l₂ : Smap}, l₁.Perm l₂ →
    ∀ st : MergeState, MergeInv table st → (∀ e ∈ l₁, InTable table e) →
    (l₁.map Prod.fst).Nodup → (l₁.map Prod.snd).Nodup →
    StEq (l₁.foldl applyEntry st) (l₂.foldl applyEntry st) := by
  intro l₁ l₂ hp
  induction hp with
  | nil =>
    intro st _ _ _ _
    exact StEq.refl st
  | cons x hp ih =>
    intro st hinv hmem hnf hns
    simp only [List.foldl_cons]
    refine ih (applyEntry st x)
      (mergeInv_applyEntry hinv (hmem x (List.mem_cons_self x _)))
      (fun e he => hmem e (List.mem_cons_of_mem x he)) ?_ ?_
    · simpa using (List.nodup_cons.mp (by simpa using hnf)).2
    · simpa using (List.nodup_cons.mp (by simpa using hns)).2
  | swap x y l =>
    intro st hinv hmem hnf hns
    simp only [List.foldl_cons]
    have hyx_f : y.1 ≠ x.1 := by
      simp only [List.map_cons, List.nodup_cons, List.mem_cons] at hnf
      exact fun hc => hnf.1 (Or.inl hc)
    have hyx_s : y.2 ≠ x.2 := by
      simp only [List.map_cons, List.nodup_cons, List.mem_cons] at hns
      exact fun hc => hns.1 (Or.inl hc)
    have hmy : InTable table y := hmem y (List.mem_cons_self y _)
    have hmx : InTable table x := hmem x (List.mem_cons_of_mem y
      (List.mem_cons_self x _))
    exact foldl_applyEntry_congr
      (applyEntry_swap table hFun hinv y x hmy hmx hyx_f hyx_s) l
  | trans hp₁ hp₂ ih₁ ih₂ =>
    intro st hinv hmem hnf hns
    refine StEq.trans (ih₁ st hinv hmem hnf hns) ?_
    refine ih₂ st hinv (fun e he => hmem e (hp₁.mem_iff.mpr he)) ?_ ?_
    · exact (List.Perm.nodup_iff (hp₁.map Prod.fst)).mp hnf
    · exact (List.Perm.nodup_iff (hp₁.map Prod.snd)).mp hns

/-- Two tables with the same profile names whose profiles are
permutations of each other: two enumeration orders of one Go map of
Go maps. -/
def TableAligned (t₁ t₂ : List (String × Smap)) : Prop :=
  ∀ n, (lookupA t₁ n = none ∧ lookupA t₂ n = none)
    ∨ ∃ p₁ p₂, lookupA t₁ n = some p₁ ∧ lookupA t₂ n = some p₂ ∧ p₁.Perm p₂

theorem exceptMap_error_iff (x : Except String MergeState)
    (f : MergeState → Smap) (e : String) :
    x.map f = .error e ↔ x = .error e := by
  cases x <;> simp [Except.map]

theorem exceptMap_ok_elim (x : Except String MergeState)
    (f : MergeState → Smap) (m : Smap) (h : x.map f = .ok m) :
    ∃ a, x = .ok a ∧ f a = m := by
  cases x with
  | error e => simp [Except.map] at h
  | ok a =>
    simp only [Except.map] at h
    cases h
    exact ⟨a, rfl, rfl⟩

theorem applyProfiles_aligned (t₁ t₂ : List (String × Smap))
    (halign : TableAligned t₁ t₂)
    (hFun : ∀ s u v, InTable t₁ (s, u) → InTable t₁ (s, v) → u = v)
    (hwf : ∀ n p, lookupA t₁ n = some p →
      (p.map Prod.fst).Nodup ∧ (p.map Prod.snd).Nodup) :
    ∀ (ns : List String) (st₁ st₂ : MergeState), StEq st₁ st₂ →
    MergeInv t₁ st₁ →
    (∀ e, applyProfiles t₁ ns st₁ = .error e
      ↔ applyProfiles t₂ ns st₂ = .error e)
    ∧ (∀ a b, applyProfiles t₁ ns st₁ = .ok a →
        applyProfiles t₂ ns st₂ = .ok b → StEq a b) := by
  intro ns
  induction ns with
  | nil =>
    intro st₁ st₂ hst hinv
    refine ⟨fun e => ?_, fun a b ha hb => ?_⟩
    · simp only [applyProfiles]
      constructor <;> intro h <;> cases h
    · simp only [applyProfiles] at ha hb
      cases ha
      cases hb
      exact hst
  | cons n rest ih =>
    intro st₁ st₂ hst hinv
    by_cases hn : n = "general"
    · simp only [applyProfiles, if_pos hn]
      exact ih st₁ st₂ hst hinv
    · rcases halign n with ⟨hn₁, hn₂⟩ | ⟨p₁, p₂, hp₁, hp₂, hperm⟩
      · simp only [applyProfiles, if_neg hn, hn₁, hn₂]
        refine ⟨fun e => trivial, fun a b ha hb => ?_⟩
        cases ha
      · simp only [applyProfiles, if_neg hn, hp₁, hp₂]
        have hmem : ∀ e ∈ p₁, InTable t₁ e := fun e he => ⟨n, p₁, hp₁, he⟩
        have hA : StEq (p₁.foldl applyEntry st₁) (p₂.foldl applyEntry st₂) :=
          StEq.trans (foldl_applyEntry_congr hst p₁)
            (foldl_applyEntry_perm t₁ hFun hperm st₂ (mergeInv_ext hst hinv)
              hmem (hwf n p₁ hp₁).1 (hwf n p₁ hp₁).2)
        exact ih _ _ hA (mergeInv_foldl p₁ st₁ hinv hmem)

theorem getProfiles_order_independent_aux
    (t₁ t₂ : List (String × Smap)) (names : List String)
    (halign : TableAligned t₁ t₂)
    (hwf : ∀ n p, lookupA t₁ n = some p →
      (p.map Prod.fst).Nodup ∧ (p.map Prod.snd).Nodup)
    (hFun : ∀ s u v, InTable t₁ (s, u) → InTable t₁ (s, v) → u = v)
    (st₁ st₂ : MergeState)
    (hch₁ : getProfiles t₁ names
      = (applyProfiles t₁ (if names.isEmpty then ["general"] else names)
          st₁).map MergeState.result)
    (hch₂ : getProfiles t₂ names
      = (applyProfiles t₂ (if names.isEmpty then ["general"] else names)
          st₂).map MergeState.result)
    (hst : StEq st₁ st₂) (hinv : MergeInv t₁ st₁) :
    (∀ e, getProfiles t₁ names = .error e ↔ getProfiles t₂ names = .error e)
    ∧ (∀ m₁ m₂, getProfiles t₁ names = .ok m₁ →
        getProfiles t₂ names = .ok m₂ → ∀ s, lookupA m₁ s = lookupA m₂ s) := by
  obtain ⟨herr, hok⟩ := applyProfiles_aligned t₁ t₂ halign hFun hwf
    (if names.isEmpty then ["general"] else names) st₁ st₂ hst hinv
  constructor
  · intro e
    rw [hch₁, hch₂, exceptMap_error_iff, exceptMap_error_iff]
    exact herr e
  · intro m₁ m₂ h₁ h₂ s
    rw [hch₁] at h₁
    rw [hch₂] at h₂
    obtain ⟨a, ha, ham⟩ := exceptMap_ok_elim _ _ _ h₁
    obtain ⟨b, hb, hbm⟩ := exceptMap_ok_elim _ _ _ h₂
    rw [← ham, ← hbm]
    exact (hok a b ha hb).1 s

/-- C9 (amended): `GetProfiles` is independent of the enumeration order
of each profile of the table — two tables that are per-profile
permutations of each other give extensionally equal results and
identical errors — provided no profile maps two distinct sources to one
target and no source is mapped to two different targets anywhere in the
table (the two excluded situations are exactly those in which the
stale reverse index makes the outcome order-dependent). -/
theorem getProfiles_order_independent
    (t₁ t₂ : List (String × Smap)) (names : List String)
    (halign : TableAligned t₁ t₂)
    (hwf : ∀ n p, lookupA t₁ n = some p →
      (p.map Prod.fst).Nodup ∧ (p.map Prod.snd).Nodup)
    (hFun : ∀ s u v, InTable t₁ (s, u) → InTable t₁ (s, v) → u = v) :
    (∀ e, getProfiles t₁ names = .error e ↔ getProfiles t₂ names = .error e)
    ∧ (∀ m₁ m₂, getProfiles t₁ names = .ok m₁ →
        getProfiles t₂ names = .ok m₂ →
        ∀ s, lookupA m₁ s = lookupA m₂ s) := by
  rcases halign "general" with ⟨hg₁, hg₂⟩ | ⟨g₁, g₂, hg₁, hg₂, hgp⟩
  · refine getProfiles_order_independent_aux t₁ t₂ names halign hwf hFun
      { result := [], tts := [] } { result := [], tts := [] } ?_ ?_
      (StEq.refl _) (mergeInv_empty t₁)
    · unfold getProfiles
      rw [hg₁]
    · unfold getProfiles
      rw [hg₂]
  · have hnd₁ := hwf "general" g₁ hg₁
    have hnds₂ : (g₂.map Prod.snd).Nodup :=
      (List.Perm.nodup_iff (hgp.map Prod.snd)).mp hnd₁.2
    have hmem : ∀ e ∈ g₁, InTable t₁ e := fun e he => ⟨"general", g₁, hg₁, he⟩
    have hseed₁ : g₁.foldl seedEntry { result := [], tts := [] }
        = g₁.foldl applyEntry { result := [], tts := [] } :=
      seedFold_eq_applyFold g₁ { result := [], tts := [] } hnd₁.2
        (fun t _ => by simp [lookupA])
    have hseed₂ : g₂.foldl seedEntry { result := [], tts := [] }
        = g₂.foldl applyEntry { result := [], tts := [] } :=
      seedFold_eq_applyFold g₂ { result := [], tts := [] } hnds₂
        (fun t _ => by simp [lookupA])
    refine getProfiles_order_independent_aux t₁ t₂ names halign hwf hFun
      (g₁.foldl seedEntry { result := [], tts := [] })
      (g₂.foldl seedEntry { result := [], tts := [] }) ?_ ?_ ?_ ?_
    · unfold getProfiles
      rw [hg₁]
    · unfold getProfiles
      rw [hg₂]
    · rw [hseed₁, hseed₂]
      exact foldl_applyEntry_perm t₁ hFun hgp { result := [], tts := [] }
        (mergeInv_empty t₁) hmem hnd₁.1 hnd₁.2
    · rw [hseed₁]
      exact mergeInv_foldl g₁ { result := [], tts := [] }
        (mergeInv_empty t₁) hmem

/-- C9 counterexample: the same Go map (two sources mapping to one
target inside `[work]`, given in its two enumeration orders) makes
`GetProfiles` return different flattened mappings. -/
theorem getProfiles_order_independent_cex :
    getProfiles [("general", []), ("work", [("s1", "t"), ("s2", "t")])]
        ["work"] = .ok [("s2", "t")]
    ∧ getProfiles [("general", []), ("work", [("s2", "t"), ("s1", "t")])]
        ["work"] = .ok [("s1", "t")]
    ∧ [("s1", "t"), ("s2", "t")].Perm [("s2", "t"), ("s1", "t")]
    ∧ lookupA [("s2", "t")] "s1" ≠ lookupA [("s1", "t")] "s1" := by
  refine ⟨rfl, rfl, List.Perm.swap ("s2", "t") ("s1", "t") [], by decide⟩

/-- Witness for C9 (amended) at concrete permuted tables. -/
theorem getProfiles_order_independent_witness :
    getProfiles [("general", [("a", "t1")]),
        ("work", [("b", "t2"), ("c", "t3")])] ["work"]
      = .ok [("c", "t3"), ("b", "t2"), ("a", "t1")]
    ∧ getProfiles [("general", [("a", "t1")]),
        ("work", [("c", "t3"), ("b", "t2")])] ["work"]
      = .ok [("b", "t2"), ("c", "t3"), ("a", "t1")]
    ∧ lookupA [("c", "t3"), ("b", "t2"), ("a", "t1")] "b"
      = lookupA [("b", "t2"), ("c", "t3"), ("a", "t1")] "b" := by
  refine ⟨rfl, rfl, ?_⟩
  have halign : TableAligned
      [("general", [("a", "t1")]), ("work", [("b", "t2"), ("c", "t3")])]
      [("general", [("a", "t1")]), ("work", [("c", "t3"), ("b", "t2")])] := by
    intro n
    by_cases h1 : n = "general"
    · subst h1
      exact Or.inr ⟨[("a", "t1")], [("a", "t1")], rfl, rfl, List.Perm.refl _⟩
    · by_cases h2 : n = "work"
      · subst h2
        exact Or.inr ⟨[("b", "t2"), ("c", "t3")], [("c", "t3"), ("b", "t2")],
          rfl, rfl, List.Perm.swap ("c", "t3") ("b", "t2") []⟩
      · exact Or.inl ⟨by simp [lookupA, h1, h2], by simp [lookupA, h1, h2]⟩
  have hwf : ∀ n p, lookupA [("general", [("a", "t1")]),
        ("work", [("b", "t2"), ("c", "t3")])] n = some p →
      (p.map Prod.fst).Nodup ∧ (p.map Prod.snd).Nodup := by
    intro n p hnp
    by_cases h1 : n = "general"
    · subst h1
      rw [show lookupA [("general", [("a", "t1")]),
          ("work", [("b", "t2"), ("c", "t3")])] "general"
          = some [("a", "t1")] from rfl] at hnp
      cases hnp
      exact ⟨by decide, by decide⟩
    · by_cases h2 : n = "work"
      · subst h2
        rw [show lookupA [("general", [("a", "t1")]),
            ("work", [("b", "t2"), ("c", "t3")])] "work"
            = some [("b", "t2"), ("c", "t3")] from rfl] at hnp
        cases hnp
        exact ⟨by decide, by decide⟩
      · simp [lookupA, h1, h2] at hnp
  have hInT : ∀ e : String × String,
      InTable [("general", [("a", "t1")]),
        ("work", [("b", "t2"), ("c", "t3")])] e →
      e = ("a", "t1") ∨ e = ("b", "t2") ∨ e = ("c", "t3") := by
    rintro e ⟨n, p, hnp, hmem⟩
    by_cases h1 : n = "general"
    · subst h1
      rw [show lookupA [("general", [("a", "t1")]),
          ("work", [("b", "t2"), ("c", "t3")])] "general"
          = some [("a", "t1")] from rfl] at hnp
      cases hnp
      exact Or.inl (List.mem_singleton.mp hmem)
    · by_cases h2 : n = "work"
      · subst h2
        rw [show lookupA [("general", [("a", "t1")]),
            ("work", [("b", "t2"), ("c", "t3")])] "work"
            = some [("b", "t2"), ("c", "t3")] from rfl] at hnp
        cases hnp
        rcases List.mem_cons.mp hmem with h | h
        · exact Or.inr (Or.inl h)
        · exact Or.inr (Or.inr (List.mem_singleton.mp h))
      · simp [lookupA, h1, h2] at hnp
  have hFun : ∀ s u v,
      InTable [("general", [("a", "t1")]),
        ("work", [("b", "t2"), ("c", "t3")])] (s, u) →
      InTable [("general", [("a", "t1")]),
        ("work", [("b", "t2"), ("c", "t3")])] (s, v) → u = v := by
    intro s u v hu hv
    rcases hInT (s, u) hu with h | h | h <;>
      rcases hInT (s, v) hv with h' | h' | h' <;>
      (injection h with hs1 ht1) <;> (injection h' with hs2 ht2) <;>
      first
      | exact absurd (hs1.symm.trans hs2) (by decide)
      | rw [ht1, ht2]
  exact (getProfiles_order_independent
    [("general", [("a", "t1")]), ("work", [("b", "t2"), ("c", "t3")])]
    [("general", [("a", "t1")]), ("work", [("c", "t3"), ("b", "t2")])]
    ["work"] halign hwf hFun).2 _ _ rfl rfl "b"
